import Mathlib

/- Verification development for the job distribution and delivery pipeline of
   this repository: the demand-supply allocator
   (backend/services/distribution_engine.py), the dispatch scheduler
   (backend/cron/job_distributor.py), the send worker
   (backend/tasks/email_tasks.py) and the SMTP sender
   (backend/services/smtp_sender.py).

   Modelling conventions.  Python dicts keyed by strings are modelled as
   association lists with first-occurrence lookup and update, which coincides
   with unique-key dict behaviour.  In-place mutation of the job dicts is
   modelled by explicit state passing: the engine state carries the list of
   job records and every mutation replaces the record at its list position.
   The float arithmetic on the jobs-per-user ratio is modelled over the
   rationals; for the pool sizes the code handles (well below 2^26 users and
   jobs) double-precision division decides every comparison, floor and
   ceiling in this program exactly as the rationals do.  Randomness (the
   shuffle of the job list, random.randint) is injected: the shuffle is a
   function parameter and each randint draw consumes one value of a stream
   of naturals. -/

/-- Lookup in an association list: the value stored at the first matching
key, mirroring a Python dict read. -/
def lookupA {α : Type} : List (String × α) → String → Option α
  | [], _ => none
  | (k, v) :: rest, key => if k = key then some v else lookupA rest key

/-- Python dict read with a default, m.get(key, d). -/
def lookupD {α : Type} (m : List (String × α)) (key : String) (d : α) : α :=
  (lookupA m key).getD d

/-- Python dict write m[key] = v: replace the first entry holding the key,
else append a fresh entry. -/
def updateA {α : Type} : List (String × α) → String → α → List (String × α)
  | [], key, v => [(key, v)]
  | (k, w) :: rest, key, v =>
    if k = key then (key, v) :: rest else (k, w) :: updateA rest key v

/-- Index of the first element satisfying a predicate (the for-scan with
break over the job list). -/
def findIdxP {α : Type} (p : α → Bool) : List α → Option ℕ
  | [] => none
  | x :: xs => if p x then some 0 else (findIdxP p xs).map (· + 1)

/-- A user snapshot as read by the engine: only the uid field is consulted
by distribute. -/
structure User where
  uid : String
deriving DecidableEq

/-- A job snapshot: the fields of the job dict that the allocator and the
scheduler consult.  appliedByUsers defaults to the empty list, matching
job.get("appliedByUsers", []). -/
structure Job where
  jobId : String
  recruiterEmail : String
  appliedByUsers : List String
deriving DecidableEq

/-- The job copy appended to a user assignment list: dict(job) taken at
assignment time extended with the _share_group and _share_position keys. -/
structure AssignedJob where
  job : Job
  share_group : ℕ
  share_position : ℕ
deriving DecidableEq

/-- The mutable state of DistributionEngine.distribute: the (mutated) job
dicts, the job_slots and user_counts dicts, the share-group bookkeeping and
the assignments under construction. -/
structure DistState where
  jobs : List Job
  job_slots : List (String × ℕ)
  share_group_counter : ℕ
  job_share_groups : List (String × (ℕ × List String))
  assignments : List (String × List AssignedJob)
  user_counts : List (String × ℕ)
deriving DecidableEq

def TARGET_MAX : ℕ := 20

def TARGET_MIN : ℕ := 15

def MAX_SHARING : ℕ := 3

/-- Stage 1 of distribute: the demand-supply mode selection computing
(sharing_factor, target_per_user) from the jobs-per-user ratio. -/
def selectMode (total_users total_jobs : ℕ) : ℕ × ℕ :=
  let ratio : ℚ := (total_jobs : ℚ) / (total_users : ℚ)
  if (TARGET_MAX : ℚ) ≤ ratio then (1, TARGET_MAX)
  else if (TARGET_MIN : ℚ) ≤ ratio then (1, (⌊ratio⌋).toNat)
  else
    let sharing_factor := min (⌈(TARGET_MIN : ℚ) / ratio⌉).toNat MAX_SHARING
    (sharing_factor, min TARGET_MIN (⌊ratio * (sharing_factor : ℚ)⌋).toNat)

/-- Stage 2 of distribute: job_slots starts with sharing_factor slots per
jobId. -/
def initSlots (sharing_factor : ℕ) (jobs : List Job) : List (String × ℕ) :=
  jobs.foldl (fun m job => updateA m job.jobId sharing_factor) []

/-- assignments starts as one empty list per user uid. -/
def initAssignments (users : List User) : List (String × List AssignedJob) :=
  users.foldl (fun m user => updateA m user.uid []) []

/-- user_counts starts at zero per user uid. -/
def initCounts (users : List User) : List (String × ℕ) :=
  users.foldl (fun m user => updateA m user.uid 0) []

/-- The engine state right before the round loop starts. -/
def initState (sharing_factor : ℕ) (users : List User) (jobs : List Job) :
    DistState :=
  { jobs := jobs
    job_slots := initSlots sharing_factor jobs
    share_group_counter := 0
    job_share_groups := []
    assignments := initAssignments users
    user_counts := initCounts users }

/-- The two guards of the inner job scan: the job still has an open slot and
the user is not in its appliedByUsers list (historical or this batch). -/
def assignableTo (st : DistState) (user_id : String) (job : Job) : Bool :=
  decide (0 < lookupD st.job_slots job.jobId 0) &&
    ! job.appliedByUsers.contains user_id

/-- One assignment (lines 83 to 106 of distribution_engine.py): create the
share group if absent, record the job copy with sharing metadata in the
assignment list of the user, decrement the slot, bump the user count and
append the uid to the appliedByUsers list of the job record in place. -/
def performAssign (st : DistState) (user_id : String) (i : ℕ) : DistState :=
  match st.jobs[i]? with
  | none => st
  | some job =>
    let job_id := job.jobId
    let withGroup :=
      match lookupA st.job_share_groups job_id with
      | none =>
        { st with
          share_group_counter := st.share_group_counter + 1
          job_share_groups :=
            updateA st.job_share_groups job_id (st.share_group_counter + 1, []) }
      | some _ => st
    let g := lookupD withGroup.job_share_groups job_id (0, [])
    let position_in_group := g.2.length
    let job_copy : AssignedJob :=
      { job := job, share_group := g.1, share_position := position_in_group }
    { withGroup with
      job_share_groups :=
        updateA withGroup.job_share_groups job_id (g.1, g.2 ++ [user_id])
      assignments :=
        updateA withGroup.assignments user_id
          (lookupD withGroup.assignments user_id [] ++ [job_copy])
      job_slots :=
        updateA withGroup.job_slots job_id
          (lookupD withGroup.job_slots job_id 0 - 1)
      user_counts :=
        updateA withGroup.user_counts user_id
          (lookupD withGroup.user_counts user_id 0 + 1)
      jobs :=
        withGroup.jobs.set i
          { job with appliedByUsers := job.appliedByUsers ++ [user_id] } }

/-- The per-user body of one round: skip users at target, otherwise scan the
jobs in order and assign the first available one (the break). -/
def roundUsers (target_per_user : ℕ) :
    List User → DistState → Bool → DistState × Bool
  | [], st, changed => (st, changed)
  | user :: rest, st, changed =>
    if target_per_user ≤ lookupD st.user_counts user.uid 0 then
      roundUsers target_per_user rest st changed
    else
      match findIdxP (assignableTo st user.uid) st.jobs with
      | none => roundUsers target_per_user rest st changed
      | some i => roundUsers target_per_user rest (performAssign st user.uid i) true

/-- Stable insertion of a user into a list already ascending by current
count: the user goes after every element with a smaller or equal count. -/
def insertByCount (counts : List (String × ℕ)) (user : User) :
    List User → List User
  | [] => [user]
  | v :: vs =>
    if lookupD counts v.uid 0 ≤ lookupD counts user.uid 0 then
      v :: insertByCount counts user vs
    else user :: v :: vs

/-- sorted(users, key=current count): a stable ascending sort, extensionally
equal to the stable sort Python uses. -/
def sortByCounts (counts : List (String × ℕ)) (users : List User) : List User :=
  users.foldl (fun acc user => insertByCount counts user acc) []

/-- One full round of the fairness loop: sort users ascending by count once,
then process each in turn; the Bool reports whether any assignment happened
(the changed flag). -/
def distRound (target_per_user : ℕ) (users : List User) (st : DistState) :
    DistState × Bool :=
  roundUsers target_per_user (sortByCounts st.user_counts users) st false

/-- The while-changed loop, fuelled.  The fuel argument is only a
termination bound: the rounds-terminate theorem below shows the loop
reaches a round with no assignment (and hence a fixpoint) before any fuel
of at least total-slots + 1 runs out. -/
def loopRounds (target_per_user : ℕ) (users : List User) :
    ℕ → DistState → DistState
  | 0, st => st
  | fuel + 1, st =>
    let step := distRound target_per_user users st
    if step.2 then loopRounds target_per_user users fuel step.1 else step.1

/-- What distribute returns, together with the final contents of the job
list it mutated in place. -/
structure DistResult where
  assignments : List (String × List AssignedJob)
  jobsAfter : List Job
deriving DecidableEq

/-- Stages 2 and 3 of distribute on the already shuffled job list, with the
mode parameters made explicit. -/
def distributeCore (users : List User) (shuffled : List Job)
    (sharing_factor target_per_user : ℕ) : DistState :=
  loopRounds target_per_user users (sharing_factor * shuffled.length + 1)
    (initState sharing_factor users shuffled)

/-- DistributionEngine.distribute.  The in-place random.shuffle is injected
as a function parameter (theorems constrain it to permutations); the empty
guard returns before the shuffle, exactly as in the source. -/
def DistributionEngine.distribute (shuffle : List Job → List Job)
    (users : List User) (jobs : List Job) : DistResult :=
  if users.isEmpty || jobs.isEmpty then
    { assignments := initAssignments users, jobsAfter := jobs }
  else
    let shuffled := shuffle jobs
    let mode := selectMode users.length shuffled.length
    let st := distributeCore users shuffled mode.1 mode.2
    { assignments := st.assignments, jobsAfter := st.jobs }

/- Association list lemmas. -/

/-- The keys of an association list. -/
def keysOf {α : Type} (m : List (String × α)) : List String :=
  m.map Prod.fst

/-- The sum of the values of a natural-valued association list (the total
of remaining slots across jobs). -/
def sumVals (m : List (String × ℕ)) : ℕ :=
  (m.map Prod.snd).sum

/- Termination of the round loop. -/

/-- Total remaining assignment slots across all jobs. -/
def totalSlots (st : DistState) : ℕ := sumVals st.job_slots

/- The per-user count invariant: user_counts mirrors the assignment list
lengths and never exceeds target_per_user. -/

def CountInv (t : ℕ) (st : DistState) : Prop :=
  (keysOf st.assignments).Nodup ∧
  (∀ u, lookupD st.user_counts u 0 = (lookupD st.assignments u []).length) ∧
  (∀ u, lookupD st.user_counts u 0 ≤ t)

/- Output pairs: the multiset of (userId, jobId) assignment pairs in an
assignment map. -/

/-- All (userId, jobId) pairs of an assignment map, in order. -/
def pairsOf (as : List (String × List AssignedJob)) : List (String × String) :=
  as.flatMap (fun p => p.2.map (fun aj => (p.1, aj.job.jobId)))

/-- How often a given (userId, jobId) pair occurs in the output. -/
def pairCount (as : List (String × List AssignedJob)) (p : String × String) : ℕ :=
  (pairsOf as).countP (fun q => decide (q = p))

/-- How often a given jobId occurs in the output, across all users. -/
def jobAssignCount (as : List (String × List AssignedJob)) (j : String) : ℕ :=
  (pairsOf as).countP (fun q => decide (q.2 = j))

/- The sharing invariant: under distinct job ids, ids and slot keys are
stable, no pair repeats, a positive pair count shows up in the applied list
of the record, per-job assignment counts plus remaining slots equal the
sharing factor, and all assigned job ids come from the input. -/

def ShareInv (ids : List String) (sf : ℕ) (st : DistState) : Prop :=
  st.jobs.map Job.jobId = ids ∧
  keysOf st.job_slots = ids ∧
  (∀ p : String × String, pairCount st.assignments p ≤ 1) ∧
  (∀ i, ∀ hi : i < st.jobs.length, ∀ u : String,
      0 < pairCount st.assignments (u, (st.jobs[i]).jobId) →
      u ∈ (st.jobs[i]).appliedByUsers) ∧
  (∀ j ∈ ids, jobAssignCount st.assignments j + lookupD st.job_slots j 0 = sf) ∧
  (∀ p ∈ pairsOf st.assignments, p.2 ∈ ids)

/- The mutation invariant: positionally, every job record keeps its jobId,
and its appliedByUsers list is the original one extended by exactly users
whose assignment pair is in the output. -/

def MutInv (js : List Job) (st : DistState) : Prop :=
  st.jobs.length = js.length ∧
  ∀ i, ∀ hi : i < st.jobs.length, ∀ hj : i < js.length,
    (st.jobs[i]).jobId = (js[i]).jobId ∧
    ∃ extra, (st.jobs[i]).appliedByUsers = (js[i]).appliedByUsers ++ extra ∧
      ∀ u ∈ extra, 0 < pairCount st.assignments (u, (st.jobs[i]).jobId)

/- Preservation of the recruiter email field: the in-place rewrite of a job
record touches only its appliedByUsers list. -/

def EmailInv (js : List Job) (st : DistState) : Prop :=
  st.jobs.length = js.length ∧
  ∀ i, ∀ hi : i < st.jobs.length, ∀ hj : i < js.length,
    (st.jobs[i]).recruiterEmail = (js[i]).recruiterEmail

/- The global pair-slot balance invariant. -/

def TotInv (n : ℕ) (st : DistState) : Prop :=
  (pairsOf st.assignments).length + totalSlots st = n

/- Stability of the assignment-map keys. -/

def AKeysInv (ks : List String) (st : DistState) : Prop :=
  keysOf st.assignments = ks

/-- The jobs-per-user ratio of the mode selection, as a rational. -/
def ratioOf (total_users total_jobs : ℕ) : ℚ :=
  (total_jobs : ℚ) / (total_users : ℚ)

/-- Sample pools used to instantiate the parametric theorems. -/
def sampleUser1 : List User := [⟨"a"⟩]

def sampleJob1 : List Job := [⟨"x", "r@x.com", []⟩]

def sampleUsers10 : List User :=
  [⟨"u0"⟩, ⟨"u1"⟩, ⟨"u2"⟩, ⟨"u3"⟩, ⟨"u4"⟩,
   ⟨"u5"⟩, ⟨"u6"⟩, ⟨"u7"⟩, ⟨"u8"⟩, ⟨"u9"⟩]

def sampleJobs5 : List Job :=
  [⟨"j0", "r@x.com", []⟩, ⟨"j1", "r@x.com", []⟩, ⟨"j2", "r@x.com", []⟩,
   ⟨"j3", "r@x.com", []⟩, ⟨"j4", "r@x.com", []⟩]

/-- Claim C4 as stated: distribute would be pure, returning the assignment
map while leaving the input jobs list exactly as it was. -/
def distributeClaimPure : Prop :=
  ∀ shuffle : List Job → List Job, (∀ l, (shuffle l).Perm l) →
    ∀ (users : List User) (jobs : List Job),
      (DistributionEngine.distribute shuffle users jobs).jobsAfter = jobs

/-- Claim C2 as stated: for any 10 users and 5 jobs of one category with no
prior applications, sharingFactor would be 3 and every one of the 5 jobs
would be assigned to exactly 3 distinct users, 15 assignments in total. -/
def distributeClaimP5 : Prop :=
  ∀ shuffle : List Job → List Job, (∀ l, (shuffle l).Perm l) →
    ∀ (users : List User) (jobs : List Job),
      users.length = 10 → jobs.length = 5 →
      (users.map User.uid).Nodup → (jobs.map Job.jobId).Nodup →
      (∀ job ∈ jobs, job.appliedByUsers = []) →
      (selectMode users.length jobs.length).1 = 3 ∧
      (pairsOf (DistributionEngine.distribute shuffle users jobs).assignments).length = 15 ∧
      ∀ j ∈ jobs.map Job.jobId,
        jobAssignCount (DistributionEngine.distribute shuffle users jobs).assignments j = 3

/- ===== The send worker (backend/tasks/email_tasks.py) ===== -/

/-- Python str.strip on both ends. -/
def strStrip (s : String) : String :=
  ⟨((s.data.dropWhile Char.isWhitespace).reverse.dropWhile Char.isWhitespace).reverse⟩

/-- Python membership of a character in a string. -/
def strHasChar (s : String) (c : Char) : Bool := s.data.contains c

/-- Python substring membership, needle in hay. -/
def strIn (needle hay : String) : Bool :=
  hay.data.tails.any (fun t => needle.data.isPrefixOf t)

/-- The user document fields the worker reads.  A missing smtpPassword key
raises KeyError at the decrypt step, hence the Option. -/
structure WorkerUser where
  smtpEmail : String
  smtpPassword : Option String
  resumeUrl : Option String
deriving DecidableEq

/-- The job document field the worker validates, job.get("recruiterEmail", ""). -/
structure WorkerJob where
  recruiterEmail : String
deriving DecidableEq

/-- What generate_email_with_ai returns on success. -/
structure EmailContent where
  subject : String
  body : String
deriving DecidableEq

/-- The dict send_via_smtp returns: success plus either a response or an
error message. -/
structure SmtpResult where
  success : Bool
  response : Option String
  error : Option String
deriving DecidableEq

/-- The application ledger row the worker writes (applications collection).
Environment metadata fields not consulted by any claim (applicationId uuid,
sentAt timestamp, sentToEmail, smtpResponse, templateId, emailSubject and
emailBody) are omitted. -/
structure AppRecord where
  userId : String
  jobId : String
  status : String
  errorMessage : Option String
  retryCount : ℕ
deriving DecidableEq

/-- The environment of one send_application_email execution: every external
effect the task consults, as a value.  lockAvailable means the Redis
SET NX on the email_lock key would succeed (the key is absent). -/
structure WorkerEnv where
  dbInitialized : Bool
  lockAvailable : Bool
  userDoc : Option WorkerUser
  jobDoc : Option WorkerJob
  alreadyApplied : Bool
  composer : Except String EmailContent
  decryptOutcome : Except String String
  smtp : SmtpResult

/-- How one task execution ends: a returned status dict or a Celery retry
with the given countdown in seconds. -/
inductive TaskOutcome where
  | ret (status : String) (reason : Option String)
  | retryAt (countdown : ℕ)
deriving DecidableEq

/-- The observable result of one execution: outcome, rows added to the
applications ledger, error types written to the system log, whether the
email_lock key is set at the end, and whether the job and user stat
documents were updated. -/
structure TaskRun where
  outcome : TaskOutcome
  ledgerWrites : List AppRecord
  errorLogs : List String
  lockHeldAfter : Bool
  jobStatsUpdated : Bool
  userStatsUpdated : Bool
deriving DecidableEq

/-- The generic except-handler of the task (lines 169 to 180): Celery
self.retry requeues with countdown 60 * 2 ^ retries while retries < 3
(max_retries), otherwise MaxRetriesExceededError is caught, the error is
logged as unknown and the task returns failed, max_retries. -/
def retryHandler (lockHeld : Bool) (ledger : List AppRecord)
    (logs : List String) (retry_num : ℕ) : TaskRun :=
  if retry_num < 3 then
    { outcome := TaskOutcome.retryAt (60 * 2 ^ retry_num)
      ledgerWrites := ledger, errorLogs := logs
      lockHeldAfter := lockHeld, jobStatsUpdated := false
      userStatsUpdated := false }
  else
    { outcome := TaskOutcome.ret "failed" (some "max_retries")
      ledgerWrites := ledger, errorLogs := logs ++ ["unknown"]
      lockHeldAfter := lockHeld, jobStatsUpdated := false
      userStatsUpdated := false }

/-- send_application_email, step by step in source order.  The Redis lock is
acquired with SET NX EX 600 and never deleted anywhere in the task, so in
every branch past acquisition the key stays set; the dedicated
SMTPAuthenticationError handler at line 163 is unreachable here because
send_via_smtp returns failure dicts instead of raising. -/
def send_application_email (env : WorkerEnv) (retry_num : ℕ)
    (user_id job_id : String) : TaskRun :=
  if ¬ env.dbInitialized then
    retryHandler (!env.lockAvailable) [] [] retry_num
  else if ¬ env.lockAvailable then
    { outcome := TaskOutcome.ret "skipped" (some "duplicate_lock")
      ledgerWrites := [], errorLogs := [], lockHeldAfter := true
      jobStatsUpdated := false, userStatsUpdated := false }
  else
    match env.userDoc with
    | none =>
      { outcome := TaskOutcome.ret "failed" (some "user_not_found")
        ledgerWrites := [], errorLogs := [], lockHeldAfter := true
        jobStatsUpdated := false, userStatsUpdated := false }
    | some user =>
      match env.jobDoc with
      | none =>
        { outcome := TaskOutcome.ret "failed" (some "job_not_found")
          ledgerWrites := [], errorLogs := [], lockHeldAfter := true
          jobStatsUpdated := false, userStatsUpdated := false }
      | some job =>
        let recipient := strStrip job.recruiterEmail
        if recipient = "" ∨ ¬ strHasChar recipient '@' then
          { outcome := TaskOutcome.ret "failed" (some "no_recruiter_email")
            ledgerWrites := [], errorLogs := ["email_bounced"]
            lockHeldAfter := true, jobStatsUpdated := false
            userStatsUpdated := false }
        else if env.alreadyApplied then
          { outcome := TaskOutcome.ret "skipped" (some "already_applied")
            ledgerWrites := [], errorLogs := [], lockHeldAfter := true
            jobStatsUpdated := false, userStatsUpdated := false }
        else
          match env.composer with
          | Except.error _ => retryHandler true [] [] retry_num
          | Except.ok _ =>
            match user.smtpPassword with
            | none =>
              { outcome := TaskOutcome.ret "failed" (some "smtp_password_missing")
                ledgerWrites := [], errorLogs := [], lockHeldAfter := true
                jobStatsUpdated := false, userStatsUpdated := false }
            | some _ =>
              match env.decryptOutcome with
              | Except.error _ =>
                { outcome := TaskOutcome.ret "failed"
                    (some "smtp_password_decrypt_failed")
                  ledgerWrites := [], errorLogs := ["smtp_auth_failed"]
                  lockHeldAfter := true, jobStatsUpdated := false
                  userStatsUpdated := false }
              | Except.ok _ =>
                let r := env.smtp
                let rec0 : AppRecord :=
                  { userId := user_id, jobId := job_id
                    status := if r.success then "sent" else "failed"
                    errorMessage := r.error, retryCount := retry_num }
                if r.success then
                  { outcome := TaskOutcome.ret "success" none
                    ledgerWrites := [rec0], errorLogs := []
                    lockHeldAfter := true, jobStatsUpdated := true
                    userStatsUpdated := true }
                else
                  let error_msg := r.error.getD ""
                  if strIn "Authentication" error_msg || strIn "535" error_msg then
                    { outcome := TaskOutcome.ret "failed" (some "smtp_auth")
                      ledgerWrites := [rec0], errorLogs := ["smtp_auth_failed"]
                      lockHeldAfter := true, jobStatsUpdated := false
                      userStatsUpdated := false }
                  else retryHandler true [rec0] [] retry_num

/-- The recruiterEmail validation of lines 63 to 64. -/
def validRecipient (env : WorkerEnv) : Bool :=
  match env.jobDoc with
  | some job =>
    let recipient := strStrip job.recruiterEmail
    !(recipient == "") && strHasChar recipient '@'
  | none => false

/-- An execution reaches the SMTP send attempt exactly when every guard
before line 102 passes. -/
def reachesSend (env : WorkerEnv) : Bool :=
  env.dbInitialized && env.lockAvailable && env.userDoc.isSome &&
    env.jobDoc.isSome && validRecipient env && !env.alreadyApplied &&
    (match env.composer with
     | Except.ok _ => true
     | Except.error _ => false) &&
    (match env.userDoc with
     | some user => user.smtpPassword.isSome
     | none => false) &&
    (match env.decryptOutcome with
     | Except.ok _ => true
     | Except.error _ => false)

/-- An execution hits the transient path: either the composer raises after
all earlier guards passed, or the transport fails with a non-auth error. -/
def transientFailureEnv (env : WorkerEnv) : Bool :=
  env.dbInitialized && env.lockAvailable && env.userDoc.isSome &&
    env.jobDoc.isSome && validRecipient env && !env.alreadyApplied &&
    (match env.composer with
     | Except.error _ => true
     | Except.ok _ =>
       (match env.userDoc with
        | some user => user.smtpPassword.isSome
        | none => false) &&
       (match env.decryptOutcome with
        | Except.ok _ => true
        | Except.error _ => false) &&
       !env.smtp.success &&
       !(strIn "Authentication" (env.smtp.error.getD "") ||
         strIn "535" (env.smtp.error.getD "")))

/-- An environment where everything works until the SMTP transport fails
with a transient (non-auth) error. -/
def envTransient : WorkerEnv :=
  { dbInitialized := true, lockAvailable := true
    userDoc := some { smtpEmail := "u@x.com", smtpPassword := some "blob"
                      resumeUrl := none }
    jobDoc := some { recruiterEmail := "r@x.com" }
    alreadyApplied := false
    composer := Except.ok { subject := "s", body := "b" }
    decryptOutcome := Except.ok "pw"
    smtp := { success := false, response := none
              error := some "connection refused" } }

/-- An environment where the email composer raises. -/
def envComposerFail : WorkerEnv :=
  { envTransient with composer := Except.error "composer down" }

/-- Claim C1 as stated: the ledger row would be committed only after send
success or at a permanent failure, and never by an attempt about to be
retried. -/
def workerLedgerClaimStated : Prop :=
  ∀ (env : WorkerEnv) (r : ℕ) (uid jid : String),
    (∀ c, (send_application_email env r uid jid).outcome = TaskOutcome.retryAt c →
      (send_application_email env r uid jid).ledgerWrites = []) ∧
    ((send_application_email env r uid jid).outcome = TaskOutcome.ret "success" none ∨
      (∃ reason, (send_application_email env r uid jid).outcome =
        TaskOutcome.ret "failed" (some reason)) →
      (send_application_email env r uid jid).ledgerWrites.length = 1)

/-- Claim C3 as stated: transient failures requeue with countdown
60 * 2 ^ retryCount for at most 3 retries, and exceeding the limit would
write a status=failed ApplicationRecord for the exhaustion itself. -/
def workerRetryClaimStated : Prop :=
  ∀ (env : WorkerEnv) (r : ℕ) (uid jid : String),
    transientFailureEnv env = true →
    (r < 3 → (send_application_email env r uid jid).outcome =
      TaskOutcome.retryAt (60 * 2 ^ r)) ∧
    (3 ≤ r → (send_application_email env r uid jid).outcome =
        TaskOutcome.ret "failed" (some "max_retries") ∧
      ∃ rec ∈ (send_application_email env r uid jid).ledgerWrites,
        rec.status = "failed")

/- ===== The SMTP sender (backend/services/smtp_sender.py) ===== -/

/-- Python str.startswith. -/
def strStarts (p s : String) : Bool := p.data.isPrefixOf s.data

/-- Drop the first n characters. -/
def strDrop (s : String) (n : ℕ) : String := ⟨s.data.drop n⟩

/-- The environment of one send_via_smtp call: the outcome of the two
possible resume downloads and of the SMTP connect, login and send.  Resume
bytes are abstracted as lists of naturals. -/
structure SmtpEnv where
  resumeUrl : Option String
  gcsDownload : Except String (List ℕ)
  firestoreResume : Option (Except String (List ℕ))
  transport : Except String Unit

/-- Lines 18 to 55: resolve the optional resume attachment.  Every failure
inside the inner try (bad URL format, download error, missing content key,
base64 error) is caught and leaves resume_bytes at None; a missing
Firestore document or an unknown URL scheme only logs a warning.  The
firestore:// branch takes the text after the first :// (the source splits
on ://). -/
def resumeBytesOf (env : SmtpEnv) : Option (List ℕ) :=
  match env.resumeUrl with
  | none => none
  | some url =>
    if url = "" then none
    else if strStarts "gs://" url then
      let rest := strDrop url 5
      if ¬ strHasChar rest '/' then none
      else
        let bucket := rest.data.takeWhile (fun c => c != '/')
        let blob := rest.data.drop (bucket.length + 1)
        if blob.isEmpty then none
        else
          match env.gcsDownload with
          | Except.ok b => some b
          | Except.error _ => none
    else if strStarts "firestore://" url then
      let rest := strDrop url 12
      let user_id := rest.data.takeWhile (fun c => c != '/')
      if user_id.isEmpty then none
      else
        match env.firestoreResume with
        | none => none
        | some (Except.error _) => none
        | some (Except.ok b) => some b
    else none

/-- The MIME message actually handed to send_message: the attachment is
present only when resume_bytes is non-empty (line 68). -/
structure EmailMessage where
  sender : String
  recipient : String
  subject : String
  hasAttachment : Bool
deriving DecidableEq

/-- send_via_smtp: build the message, attach the resume when available and
send; every exception of the outer try becomes a success=False dict with
the stringified error, success returns success=True with 250 OK.  The
second component is the message transmitted, when the transport succeeded. -/
def send_via_smtp (env : SmtpEnv)
    (user_smtp user_password recipient subject body : String) :
    SmtpResult × Option EmailMessage :=
  let resume_bytes := resumeBytesOf env
  let hasAtt : Bool :=
    match resume_bytes with
    | some b => ! b.isEmpty
    | none => false
  let msg : EmailMessage :=
    { sender := user_smtp, recipient := recipient, subject := subject
      hasAttachment := hasAtt }
  match env.transport with
  | Except.ok _ =>
    ({ success := true, response := some "250 OK", error := none }, some msg)
  | Except.error e =>
    ({ success := false, response := none, error := some e }, none)

/-- A call where the resume download fails but the transport works. -/
def envResumeFail : SmtpEnv :=
  { resumeUrl := some "gs://bucket/file.pdf"
    gcsDownload := Except.error "404 not found"
    firestoreResume := none
    transport := Except.ok () }

/- ===== The dispatch scheduler (backend/cron/job_distributor.py) ===== -/

/-- random.randint(lo, hi): both endpoints included; each call consumes one
value of the injected draw stream. -/
def randint (lo hi d : ℕ) : ℕ := lo + d % (hi - lo + 1)

/-- Stagger offsets for shared jobs, in seconds, by tier. -/
def STAGGER_RANGES : List (ℕ × ℕ) :=
  [(0, 0), (3 * 3600, 4 * 3600), (6 * 3600, 8 * 3600)]

/-- One enqueued send task, with the delay components the source computes
at lines 130 to 152 (the apply_async countdown is their sum). -/
structure QueuedSend where
  userId : String
  jobId : String
  user_offset : ℕ
  base_delay : ℕ
  stagger : ℕ
  countdown : ℕ
deriving DecidableEq

/-- The inner loop over one user assignment list (lines 132 to 154): the
i-th job gets base_delay = randint(120,300) * (i+1), a stagger drawn from
the tier min(share_position, 2) when that tier has a positive upper bound
(tier 0 draws nothing), and one task is enqueued with the summed countdown.
The second component is the next unread position of the draw stream. -/
def scheduleJobs (g : ℕ → ℕ) (user_id : String) (user_offset : ℕ) :
    List AssignedJob → ℕ → ℕ → List QueuedSend × ℕ
  | [], _, k => ([], k)
  | aj :: rest, i, k =>
    let base_delay := randint 120 300 (g k) * (i + 1)
    let stagger_idx := min aj.share_position (STAGGER_RANGES.length - 1)
    let range := STAGGER_RANGES.getD stagger_idx (0, 0)
    let staggerDraw :=
      if 0 < range.2 then (randint range.1 range.2 (g (k + 1)), k + 2)
      else (0, k + 1)
    let q : QueuedSend :=
      { userId := user_id, jobId := aj.job.jobId, user_offset := user_offset
        base_delay := base_delay, stagger := staggerDraw.1
        countdown := user_offset + base_delay + staggerDraw.1 }
    let restOut := scheduleJobs g user_id user_offset rest (i + 1) staggerDraw.2
    (q :: restOut.1, restOut.2)

/-- The outer loop over assignments.items() (line 126): one random user
offset from randint(0, 600) per user, then that user jobs in order. -/
def scheduleUsers (g : ℕ → ℕ) :
    List (String × List AssignedJob) → ℕ → List (String × List QueuedSend) × ℕ
  | [], k => ([], k)
  | (user_id, assigned_jobs) :: rest, k =>
    let user_offset := randint 0 600 (g k)
    let userOut := scheduleJobs g user_id user_offset assigned_jobs 0 (k + 1)
    let restOut := scheduleUsers g rest userOut.2
    ((user_id, userOut.1) :: restOut.1, restOut.2)

/-- The scheduling part of job_distributor.main (lines 126 to 154), applied
to one distribution output, with the randomness injected as a draw
stream. -/
def JobDistributor.scheduleAssignments (g : ℕ → ℕ)
    (assignments : List (String × List AssignedJob)) :
    List (String × List QueuedSend) :=
  (scheduleUsers g assignments 0).1

/-- Claim C7 as stated: every enqueued task would carry
delay = userOffset + baseDelay + stagger with the per-user offset drawn
from the half-open interval [0, 600). -/
def schedulerClaimStated : Prop :=
  ∀ (g : ℕ → ℕ) (assignments : List (String × List AssignedJob)),
    ∀ gq ∈ JobDistributor.scheduleAssignments g assignments,
      ∀ q ∈ gq.2,
        q.countdown = q.user_offset + q.base_delay + q.stagger ∧
        q.user_offset < 600

/-- A single shared-position-zero assignment used to refute and to witness
the scheduler claims. -/
def sampleAssignment : List (String × List AssignedJob) :=
  [("u", [{ job := { jobId := "x", recruiterEmail := "r@x.com"
                     appliedByUsers := ["u"] }
            share_group := 1, share_position := 0 }])]

theorem lookupA_updateA_self {α : Type} (m : List (String × α)) (k : String)
    (v : α) : lookupA (updateA m k v) k = some v := by
  induction m with
  | nil => simp [updateA, lookupA]
  | cons p rest ih =>
    obtain ⟨k1, v1⟩ := p
    by_cases h : k1 = k
    · simp [updateA, lookupA, h]
    · simp [updateA, lookupA, h, ih]

theorem keysOf_nil {α : Type} : keysOf ([] : List (String × α)) = [] := rfl

theorem keysOf_cons {α : Type} (p : String × α) (m : List (String × α)) :
    keysOf (p :: m) = p.1 :: keysOf m := rfl

theorem sumVals_nil : sumVals [] = 0 := rfl

theorem sumVals_cons (p : String × ℕ) (m : List (String × ℕ)) :
    sumVals (p :: m) = p.2 + sumVals m := by
  simp [sumVals]

theorem lookupA_updateA_ne {α : Type} (m : List (String × α)) (k k2 : String)
    (v : α) (h : k2 ≠ k) : lookupA (updateA m k v) k2 = lookupA m k2 := by
  induction m with
  | nil => simp [updateA, lookupA, Ne.symm h]
  | cons p rest ih =>
    obtain ⟨k1, v1⟩ := p
    by_cases h1 : k1 = k
    · subst h1
      simp [updateA, lookupA, Ne.symm h]
    · by_cases h2 : k1 = k2 <;> simp [updateA, lookupA, h1, h2, ih, h, Ne.symm h]

theorem lookupA_mem {α : Type} (m : List (String × α)) (k : String) (v : α)
    (h : lookupA m k = some v) : (k, v) ∈ m := by
  induction m with
  | nil => simp [lookupA] at h
  | cons p rest ih =>
    obtain ⟨k1, v1⟩ := p
    by_cases h1 : k1 = k
    · subst h1
      simp [lookupA] at h
      simp [h]
    · simp [lookupA, h1] at h
      exact List.mem_cons_of_mem _ (ih h)

theorem lookupA_of_mem_nodup {α : Type} (m : List (String × α)) (k : String)
    (v : α) (hmem : (k, v) ∈ m) (hnd : (keysOf m).Nodup) :
    lookupA m k = some v := by
  induction m with
  | nil => simp at hmem
  | cons p rest ih =>
    obtain ⟨k1, v1⟩ := p
    rw [keysOf_cons, List.nodup_cons] at hnd
    rcases List.mem_cons.mp hmem with h | h
    · simp only [Prod.mk.injEq] at h
      obtain ⟨hk, hv⟩ := h
      subst hk
      subst hv
      simp [lookupA]
    · have hkmem : k ∈ keysOf rest := by
        have := List.mem_map_of_mem Prod.fst h
        simpa [keysOf] using this
      have hk1 : k1 ≠ k := by
        intro he
        subst he
        exact hnd.1 hkmem
      simp [lookupA, hk1]
      exact ih h hnd.2

theorem keysOf_updateA_of_mem {α : Type} (m : List (String × α)) (k : String)
    (v : α) (h : k ∈ keysOf m) : keysOf (updateA m k v) = keysOf m := by
  induction m with
  | nil => simp [keysOf_nil] at h
  | cons p rest ih =>
    obtain ⟨k1, v1⟩ := p
    by_cases h1 : k1 = k
    · simp [updateA, keysOf_cons, h1]
    · have h2 : k ∈ keysOf rest := by
        rcases List.mem_cons.mp (by simpa [keysOf_cons] using h) with he | hm
        · exact absurd he.symm h1
        · exact hm
      simp only [updateA, h1, if_false, keysOf_cons]
      rw [ih h2]

theorem keysOf_updateA_of_not_mem {α : Type} (m : List (String × α))
    (k : String) (v : α) (h : k ∉ keysOf m) :
    keysOf (updateA m k v) = keysOf m ++ [k] := by
  induction m with
  | nil => simp [updateA, keysOf]
  | cons p rest ih =>
    obtain ⟨k1, v1⟩ := p
    have h1 : k1 ≠ k := by
      intro he
      exact h (by simp [keysOf_cons, he])
    have h2 : k ∉ keysOf rest := by
      intro hm
      exact h (by simp [keysOf_cons]; right; exact hm)
    simp only [updateA, h1, if_false, keysOf_cons]
    rw [ih h2]
    rfl

theorem keysOf_updateA_nodup {α : Type} (m : List (String × α)) (k : String)
    (v : α) (hnd : (keysOf m).Nodup) : (keysOf (updateA m k v)).Nodup := by
  by_cases h : k ∈ keysOf m
  · rw [keysOf_updateA_of_mem m k v h]; exact hnd
  · rw [keysOf_updateA_of_not_mem m k v h]
    simpa [List.nodup_append] using ⟨hnd, h⟩

theorem sumVals_updateA (m : List (String × ℕ)) (k : String) (v w : ℕ)
    (h : lookupA m k = some v) : sumVals (updateA m k w) + v = sumVals m + w := by
  induction m with
  | nil => simp [lookupA] at h
  | cons p rest ih =>
    obtain ⟨k1, v1⟩ := p
    by_cases h1 : k1 = k
    · subst h1
      simp [lookupA] at h
      subst h
      simp [updateA, sumVals]
      omega
    · simp [lookupA, h1] at h
      have := ih h
      simp [updateA, sumVals, h1] at this ⊢
      omega

theorem sumVals_updateA_fresh (m : List (String × ℕ)) (k : String) (w : ℕ)
    (h : k ∉ keysOf m) : sumVals (updateA m k w) = sumVals m + w := by
  induction m with
  | nil => simp [updateA, sumVals]
  | cons p rest ih =>
    obtain ⟨k1, v1⟩ := p
    have h1 : k1 ≠ k := fun he => h (by simp [keysOf, he])
    have h2 : k ∉ keysOf rest := fun hm => h (by simp [keysOf] at hm ⊢; right; exact hm)
    simp [updateA, sumVals, h1] at ih ⊢
    have := ih h2
    omega

theorem lookupA_const {α : Type} (m : List (String × α)) (c : α)
    (hall : ∀ p ∈ m, p.2 = c) (k : String) :
    lookupA m k = none ∨ lookupA m k = some c := by
  induction m with
  | nil => simp [lookupA]
  | cons p rest ih =>
    obtain ⟨k1, v1⟩ := p
    by_cases h1 : k1 = k
    · right
      have : v1 = c := hall (k1, v1) (by simp)
      simp [lookupA, h1, this]
    · simp [lookupA, h1]
      exact ih (fun p hp => hall p (List.mem_cons_of_mem _ hp))

theorem findIdxP_some {α : Type} (p : α → Bool) (l : List α) (i : ℕ)
    (h : findIdxP p l = some i) :
    ∃ hi : i < l.length, p (l[i]) = true := by
  induction l generalizing i with
  | nil => simp [findIdxP] at h
  | cons x xs ih =>
    by_cases hx : p x
    · simp [findIdxP, hx] at h
      subst h
      exact ⟨by simp, by simpa using hx⟩
    · simp [findIdxP, hx] at h
      obtain ⟨j, hj, rfl⟩ := h
      obtain ⟨hjl, hpj⟩ := ih j hj
      exact ⟨by simpa using Nat.succ_lt_succ hjl, by simpa using hpj⟩

theorem findIdxP_none {α : Type} (p : α → Bool) (l : List α)
    (h : findIdxP p l = none) : ∀ x ∈ l, p x = false := by
  induction l with
  | nil => simp
  | cons x xs ih =>
    by_cases hx : p x
    · simp [findIdxP, hx] at h
    · simp [findIdxP, hx] at h
      intro y hy
      rcases List.mem_cons.mp hy with rfl | hmem
      · simpa using hx
      · exact ih h y hmem

/-- The four state fields the invariants track, after one assignment at a
valid job index: the job record gains the uid, the slot is decremented, the
user list gains one job copy of that job and the user count goes up by one.
The share-group branch only affects the group bookkeeping fields. -/
theorem performAssign_spec (st : DistState) (u : String) (i : ℕ)
    (hi : i < st.jobs.length) :
    ∃ aj : AssignedJob,
      (performAssign st u i).assignments =
        updateA st.assignments u (lookupD st.assignments u [] ++ [aj]) ∧
      aj.job = st.jobs[i] ∧
      (performAssign st u i).jobs =
        st.jobs.set i
          { st.jobs[i] with
            appliedByUsers := (st.jobs[i]).appliedByUsers ++ [u] } ∧
      (performAssign st u i).job_slots =
        updateA st.job_slots (st.jobs[i]).jobId
          (lookupD st.job_slots (st.jobs[i]).jobId 0 - 1) ∧
      (performAssign st u i).user_counts =
        updateA st.user_counts u (lookupD st.user_counts u 0 + 1) := by
  have hget : st.jobs[i]? = some (st.jobs[i]) := List.getElem?_eq_getElem hi
  cases hg : lookupA st.job_share_groups (st.jobs[i]).jobId with
  | none =>
    simp only [performAssign, hget, hg]
    exact ⟨_, rfl, rfl, trivial, trivial, trivial⟩
  | some g =>
    simp only [performAssign, hget, hg]
    exact ⟨_, rfl, rfl, trivial, trivial, trivial⟩

theorem totalSlots_performAssign_lt (st : DistState) (u : String) (i : ℕ)
    (hi : i < st.jobs.length)
    (hassign : assignableTo st u (st.jobs[i]) = true) :
    totalSlots (performAssign st u i) < totalSlots st := by
  obtain ⟨aj, _, _, _, hslots, _⟩ := performAssign_spec st u i hi
  have hpos : 0 < lookupD st.job_slots (st.jobs[i]).jobId 0 := by
    simp [assignableTo] at hassign
    exact hassign.1
  cases hl : lookupA st.job_slots (st.jobs[i]).jobId with
  | none => simp [lookupD, hl] at hpos
  | some v =>
    have hv : lookupD st.job_slots (st.jobs[i]).jobId 0 = v := by
      simp [lookupD, hl]
    have := sumVals_updateA st.job_slots (st.jobs[i]).jobId v (v - 1) hl
    rw [hv] at hpos
    simp only [totalSlots, hslots, hv]
    omega

theorem roundUsers_flag_true (t : ℕ) (us : List User) (st : DistState) :
    (roundUsers t us st true).2 = true := by
  induction us generalizing st with
  | nil => rfl
  | cons user rest ih =>
    by_cases h1 : t ≤ lookupD st.user_counts user.uid 0
    · simpa [roundUsers, h1] using ih st
    · cases hf : findIdxP (assignableTo st user.uid) st.jobs with
      | none => simpa [roundUsers, h1, hf] using ih st
      | some i => simpa [roundUsers, h1, hf] using ih (performAssign st user.uid i)

theorem roundUsers_slots_le (t : ℕ) (us : List User) (st : DistState)
    (b : Bool) : totalSlots (roundUsers t us st b).1 ≤ totalSlots st := by
  induction us generalizing st b with
  | nil => simp [roundUsers]
  | cons user rest ih =>
    by_cases h1 : t ≤ lookupD st.user_counts user.uid 0
    · simpa [roundUsers, h1] using ih st b
    · cases hf : findIdxP (assignableTo st user.uid) st.jobs with
      | none => simpa [roundUsers, h1, hf] using ih st b
      | some i =>
        obtain ⟨hi, hp⟩ := findIdxP_some _ _ _ hf
        have hlt := totalSlots_performAssign_lt st user.uid i hi hp
        have := ih (performAssign st user.uid i) true
        simp only [roundUsers, h1, if_false, hf]
        omega

theorem roundUsers_of_flag_false (t : ℕ) (us : List User) (st : DistState)
    (b : Bool) (h : (roundUsers t us st b).2 = false) :
    (roundUsers t us st b).1 = st ∧ b = false := by
  induction us generalizing st b with
  | nil => exact ⟨rfl, by simpa [roundUsers] using h⟩
  | cons user rest ih =>
    by_cases h1 : t ≤ lookupD st.user_counts user.uid 0
    · have hred : roundUsers t (user :: rest) st b = roundUsers t rest st b := by
        simp [roundUsers, h1]
      rw [hred] at h ⊢
      exact ih st b h
    · cases hf : findIdxP (assignableTo st user.uid) st.jobs with
      | none =>
        have hred : roundUsers t (user :: rest) st b = roundUsers t rest st b := by
          simp [roundUsers, h1, hf]
        rw [hred] at h ⊢
        exact ih st b h
      | some i =>
        exfalso
        have := roundUsers_flag_true t rest (performAssign st user.uid i)
        simp only [roundUsers, h1, if_false, hf] at h
        rw [h] at this
        exact Bool.false_ne_true this

theorem roundUsers_slots_lt_of_changed (t : ℕ) (us : List User)
    (st : DistState) (h : (roundUsers t us st false).2 = true) :
    totalSlots (roundUsers t us st false).1 < totalSlots st := by
  induction us generalizing st with
  | nil => simp [roundUsers] at h
  | cons user rest ih =>
    by_cases h1 : t ≤ lookupD st.user_counts user.uid 0
    · have h2 : (roundUsers t rest st false).2 = true := by
        simpa [roundUsers, h1] using h
      simpa [roundUsers, h1] using ih st h2
    · cases hf : findIdxP (assignableTo st user.uid) st.jobs with
      | none =>
        have h2 : (roundUsers t rest st false).2 = true := by
          simpa [roundUsers, h1, hf] using h
        simpa [roundUsers, h1, hf] using ih st h2
      | some i =>
        obtain ⟨hi, hp⟩ := findIdxP_some _ _ _ hf
        have hlt := totalSlots_performAssign_lt st user.uid i hi hp
        have hle := roundUsers_slots_le t rest (performAssign st user.uid i) true
        simp only [roundUsers, h1, if_false, hf]
        omega

theorem distRound_of_false (t : ℕ) (users : List User) (st : DistState)
    (h : (distRound t users st).2 = false) : (distRound t users st).1 = st :=
  (roundUsers_of_flag_false t _ st false h).1

theorem distRound_lt_of_true (t : ℕ) (users : List User) (st : DistState)
    (h : (distRound t users st).2 = true) :
    totalSlots (distRound t users st).1 < totalSlots st :=
  roundUsers_slots_lt_of_changed t _ st h

/-- With fuel exceeding the current total slot count, the loop reaches a
full round that makes no assignment, and that final state is a fixpoint
of the round step. -/
theorem loopRounds_fixpoint (t : ℕ) (users : List User) :
    ∀ fuel st, totalSlots st < fuel →
      distRound t users (loopRounds t users fuel st) =
        (loopRounds t users fuel st, false) := by
  intro fuel
  induction fuel with
  | zero => intro st h; omega
  | succ fuel ih =>
    intro st h
    by_cases hc : (distRound t users st).2 = true
    · have hlt := distRound_lt_of_true t users st hc
      have : loopRounds t users (fuel + 1) st =
          loopRounds t users fuel (distRound t users st).1 := by
        simp [loopRounds, hc]
      rw [this]
      exact ih (distRound t users st).1 (by omega)
    · have hc2 : (distRound t users st).2 = false := by
        revert hc
        cases (distRound t users st).2 <;> simp
      have heq : (distRound t users st).1 = st := distRound_of_false t users st hc2
      have : loopRounds t users (fuel + 1) st = st := by
        simp [loopRounds, hc2, heq]
      rw [this]
      exact Prod.ext heq hc2

/-- The loop result does not depend on the fuel, as long as the fuel
exceeds the total slot count: the loop halts on its own. -/
theorem loopRounds_fuel_irrelevant (t : ℕ) (users : List User) :
    ∀ fuel1 fuel2 st, totalSlots st < fuel1 → totalSlots st < fuel2 →
      loopRounds t users fuel1 st = loopRounds t users fuel2 st := by
  intro fuel1
  induction fuel1 with
  | zero => intro fuel2 st h1; omega
  | succ fuel1 ih =>
    intro fuel2 st h1 h2
    cases fuel2 with
    | zero => omega
    | succ fuel2 =>
      by_cases hc : (distRound t users st).2 = true
      · have hlt := distRound_lt_of_true t users st hc
        simp only [loopRounds, hc, if_true]
        exact ih fuel2 (distRound t users st).1 (by omega) (by omega)
      · have hc2 : (distRound t users st).2 = false := by
          revert hc
          cases (distRound t users st).2 <;> simp
      
        simp [loopRounds, hc2]

/-- The initial slot pool totals sharing_factor slots per distinct job. -/
theorem sumVals_initSlots_go (sf : ℕ) :
    ∀ (js : List Job) (m : List (String × ℕ)),
      (∀ j ∈ js, j.jobId ∉ keysOf m) → (js.map Job.jobId).Nodup →
      sumVals (js.foldl (fun acc j => updateA acc j.jobId sf) m) =
        sumVals m + sf * js.length := by
  intro js
  induction js with
  | nil => intro m _ _; simp
  | cons j rest ih =>
    intro m hfresh hnd
    have h1 : j.jobId ∉ keysOf m := hfresh j (by simp)
    have hstep : sumVals (updateA m j.jobId sf) = sumVals m + sf :=
      sumVals_updateA_fresh m j.jobId sf h1
    have hkeys : keysOf (updateA m j.jobId sf) = keysOf m ++ [j.jobId] :=
      keysOf_updateA_of_not_mem m j.jobId sf h1
    have hnd2 : (rest.map Job.jobId).Nodup := (List.nodup_cons.mp (by simpa using hnd)).2
    have hjnot : j.jobId ∉ rest.map Job.jobId :=
      (List.nodup_cons.mp (by simpa using hnd)).1
    have hfresh2 : ∀ j2 ∈ rest, j2.jobId ∉ keysOf (updateA m j.jobId sf) := by
      intro j2 hj2
      rw [hkeys]
      intro hmem
      rcases List.mem_append.mp hmem with hA | hB
      · exact hfresh j2 (List.mem_cons_of_mem _ hj2) hA
      · have : j2.jobId = j.jobId := by simpa using hB
        exact hjnot (this ▸ List.mem_map_of_mem Job.jobId hj2)
    have := ih (updateA m j.jobId sf) hfresh2 hnd2
    simp only [List.foldl_cons]
    rw [this, hstep]
    simp [List.length_cons, Nat.mul_succ]
    omega

theorem totalSlots_init (sf : ℕ) (users : List User) (js : List Job)
    (hnd : (js.map Job.jobId).Nodup) :
    totalSlots (initState sf users js) = sf * js.length := by
  have := sumVals_initSlots_go sf js [] (by simp [keysOf]) hnd
  simpa [totalSlots, initState, initSlots, sumVals] using this

/- The sorted user list is a permutation of the input users. -/

theorem insertByCount_perm (counts : List (String × ℕ)) (user : User)
    (l : List User) : (insertByCount counts user l).Perm (user :: l) := by
  induction l with
  | nil => simp [insertByCount]
  | cons v vs ih =>
    by_cases h : lookupD counts v.uid 0 ≤ lookupD counts user.uid 0
    · simp only [insertByCount, h, if_true]
      exact (ih.cons v).trans (List.Perm.swap user v vs)
    · simp [insertByCount, h]

theorem sortByCounts_perm_go (counts : List (String × ℕ)) :
    ∀ (l acc : List User),
      (l.foldl (fun acc user => insertByCount counts user acc) acc).Perm
        (acc ++ l) := by
  intro l
  induction l with
  | nil => intro acc; simp
  | cons u rest ih =>
    intro acc
    have h1 := ih (insertByCount counts u acc)
    have h2 : (insertByCount counts u acc ++ rest).Perm ((u :: acc) ++ rest) :=
      (insertByCount_perm counts u acc).append_right rest
    have h3 : ((u :: acc) ++ rest).Perm (acc ++ u :: rest) := by
      simpa using List.perm_middle.symm
    simpa using h1.trans (h2.trans h3)

theorem sortByCounts_perm (counts : List (String × ℕ)) (users : List User) :
    (sortByCounts counts users).Perm users := by
  simpa [sortByCounts] using sortByCounts_perm_go counts users []

/- A generic preservation principle: any state property preserved by a
single guarded assignment is preserved by rounds and by the whole loop. -/

theorem roundUsers_preserves (t : ℕ) (users : List User)
    (P : DistState → Prop)
    (hstep : ∀ st (u : User) (i : ℕ), u ∈ users →
      ∀ hi : i < st.jobs.length,
        lookupD st.user_counts u.uid 0 < t →
        assignableTo st u.uid (st.jobs[i]) = true →
        P st → P (performAssign st u.uid i)) :
    ∀ (us : List User), (∀ u ∈ us, u ∈ users) →
      ∀ st b, P st → P (roundUsers t us st b).1 := by
  intro us
  induction us with
  | nil => intro _ st b h; exact h
  | cons user rest ih =>
    intro hsub st b h
    have huser : user ∈ users := hsub user (by simp)
    have hrest : ∀ u ∈ rest, u ∈ users := fun u hu => hsub u (List.mem_cons_of_mem _ hu)
    by_cases h1 : t ≤ lookupD st.user_counts user.uid 0
    · have hred : roundUsers t (user :: rest) st b = roundUsers t rest st b := by
        simp [roundUsers, h1]
      rw [hred]
      exact ih hrest st b h
    · cases hf : findIdxP (assignableTo st user.uid) st.jobs with
      | none =>
        have hred : roundUsers t (user :: rest) st b = roundUsers t rest st b := by
          simp [roundUsers, h1, hf]
        rw [hred]
        exact ih hrest st b h
      | some i =>
        obtain ⟨hi, hp⟩ := findIdxP_some _ _ _ hf
        have hred : roundUsers t (user :: rest) st b =
            roundUsers t rest (performAssign st user.uid i) true := by
          simp [roundUsers, h1, hf]
        rw [hred]
        exact ih hrest _ true (hstep st user i huser hi (by omega) hp h)

theorem loopRounds_preserves (t : ℕ) (users : List User)
    (P : DistState → Prop)
    (hstep : ∀ st (u : User) (i : ℕ), u ∈ users →
      ∀ hi : i < st.jobs.length,
        lookupD st.user_counts u.uid 0 < t →
        assignableTo st u.uid (st.jobs[i]) = true →
        P st → P (performAssign st u.uid i)) :
    ∀ fuel st, P st → P (loopRounds t users fuel st) := by
  intro fuel
  induction fuel with
  | zero => intro st h; exact h
  | succ fuel ih =>
    intro st h
    have hround : P (distRound t users st).1 := by
      have hmem : ∀ u ∈ sortByCounts st.user_counts users, u ∈ users := by
        intro u hu
        exact (sortByCounts_perm st.user_counts users).mem_iff.mp hu
      exact roundUsers_preserves t users P hstep _ hmem st false h
    by_cases hc : (distRound t users st).2 = true
    · simpa [loopRounds, hc] using ih (distRound t users st).1 hround
    · have hc2 : (distRound t users st).2 = false := by
        revert hc
        cases (distRound t users st).2 <;> simp
      simpa [loopRounds, hc2] using hround

/- Constant-value association maps built by the init folds. -/

theorem updateA_vals_const {α : Type} (m : List (String × α)) (k : String)
    (c : α) (h : ∀ p ∈ m, p.2 = c) : ∀ p ∈ updateA m k c, p.2 = c := by
  induction m with
  | nil => simp [updateA]
  | cons q rest ih =>
    obtain ⟨k1, v1⟩ := q
    by_cases h1 : k1 = k
    · intro p hp
      simp only [updateA, h1, if_true] at hp
      rcases List.mem_cons.mp hp with rfl | hmem
      · rfl
      · exact h p (List.mem_cons_of_mem _ hmem)
    · intro p hp
      simp only [updateA, h1, if_false] at hp
      rcases List.mem_cons.mp hp with rfl | hmem
      · exact h (k1, v1) (by simp)
      · exact ih (fun q hq => h q (List.mem_cons_of_mem _ hq)) p hmem

theorem foldl_updateA_vals_const {α β : Type} (f : β → String) (c : α) :
    ∀ (l : List β) (m : List (String × α)), (∀ p ∈ m, p.2 = c) →
      ∀ p ∈ l.foldl (fun acc x => updateA acc (f x) c) m, p.2 = c := by
  intro l
  induction l with
  | nil => intro m h; simpa using h
  | cons x rest ih =>
    intro m h
    simp only [List.foldl_cons]
    exact ih (updateA m (f x) c) (updateA_vals_const m (f x) c h)

theorem lookupD_of_vals_const {α : Type} (m : List (String × α)) (c : α)
    (h : ∀ p ∈ m, p.2 = c) (k : String) : lookupD m k c = c := by
  rcases lookupA_const m c h k with h1 | h1 <;> simp [lookupD, h1]

theorem foldl_updateA_keys_nodup {α β : Type} (f : β → String) (g : β → α) :
    ∀ (l : List β) (m : List (String × α)), (keysOf m).Nodup →
      (keysOf (l.foldl (fun acc x => updateA acc (f x) (g x)) m)).Nodup := by
  intro l
  induction l with
  | nil => intro m h; simpa using h
  | cons x rest ih =>
    intro m h
    simp only [List.foldl_cons]
    exact ih (updateA m (f x) (g x)) (keysOf_updateA_nodup m (f x) (g x) h)

theorem CountInv_performAssign (t : ℕ) (st : DistState) (u : String) (i : ℕ)
    (hi : i < st.jobs.length) (hcnt : lookupD st.user_counts u 0 < t)
    (h : CountInv t st) : CountInv t (performAssign st u i) := by
  obtain ⟨aj, hassigneq, hajJob, hjobs, hslots, hcounts⟩ := performAssign_spec st u i hi
  obtain ⟨hnd, hlen, hbound⟩ := h
  refine ⟨?_, ?_, ?_⟩
  · rw [hassigneq]
    exact keysOf_updateA_nodup _ _ _ hnd
  · intro w
    by_cases hw : w = u
    · subst hw
      rw [hcounts, hassigneq]
      have h1 : lookupD (updateA st.user_counts w (lookupD st.user_counts w 0 + 1)) w 0 =
          lookupD st.user_counts w 0 + 1 := by
        simp [lookupD, lookupA_updateA_self]
      have h2 : lookupD (updateA st.assignments w (lookupD st.assignments w [] ++ [aj])) w [] =
          lookupD st.assignments w [] ++ [aj] := by
        simp [lookupD, lookupA_updateA_self]
      rw [h1, h2]
      simp [hlen w]
    · rw [hcounts, hassigneq]
      have h1 : lookupD (updateA st.user_counts u (lookupD st.user_counts u 0 + 1)) w 0 =
          lookupD st.user_counts w 0 := by
        simp [lookupD, lookupA_updateA_ne _ _ _ _ hw]
      have h2 : lookupD (updateA st.assignments u (lookupD st.assignments u [] ++ [aj])) w [] =
          lookupD st.assignments w [] := by
        simp [lookupD, lookupA_updateA_ne _ _ _ _ hw]
      rw [h1, h2]
      exact hlen w
  · intro w
    by_cases hw : w = u
    · subst hw
      rw [hcounts]
      have h1 : lookupD (updateA st.user_counts w (lookupD st.user_counts w 0 + 1)) w 0 =
          lookupD st.user_counts w 0 + 1 := by
        simp [lookupD, lookupA_updateA_self]
      rw [h1]
      omega
    · rw [hcounts]
      have h1 : lookupD (updateA st.user_counts u (lookupD st.user_counts u 0 + 1)) w 0 =
          lookupD st.user_counts w 0 := by
        simp [lookupD, lookupA_updateA_ne _ _ _ _ hw]
      rw [h1]
      exact hbound w

theorem CountInv_init (t sf : ℕ) (users : List User) (js : List Job) :
    CountInv t (initState sf users js) := by
  have hcnt : ∀ u, lookupD (initCounts users) u 0 = 0 := by
    intro u
    exact lookupD_of_vals_const _ _
      (foldl_updateA_vals_const (fun user : User => user.uid) 0 users [] (by simp)) u
  have hasg : ∀ u, lookupD (initAssignments users) u [] = [] := by
    intro u
    exact lookupD_of_vals_const _ _
      (foldl_updateA_vals_const (fun user : User => user.uid) [] users [] (by simp)) u
  refine ⟨?_, ?_, ?_⟩
  · exact foldl_updateA_keys_nodup (fun user : User => user.uid) (fun _ => []) users [] (by simp [keysOf])
  · intro u
    simp [initState, hcnt u, hasg u]
  · intro u
    simp [initState, hcnt u]

theorem CountInv_entries (t : ℕ) (st : DistState) (h : CountInv t st) :
    ∀ p ∈ st.assignments, p.2.length ≤ t := by
  intro p hp
  have hl : lookupA st.assignments p.1 = some p.2 :=
    lookupA_of_mem_nodup _ _ _ hp h.1
  have h1 := h.2.1 p.1
  have h2 := h.2.2 p.1
  rw [show lookupD st.assignments p.1 [] = p.2 by simp [lookupD, hl]] at h1
  omega

theorem pairsOf_nil : pairsOf [] = [] := rfl

theorem pairsOf_cons (p : String × List AssignedJob)
    (rest : List (String × List AssignedJob)) :
    pairsOf (p :: rest) =
      p.2.map (fun aj => (p.1, aj.job.jobId)) ++ pairsOf rest := by
  simp [pairsOf]

theorem pairCount_pos_iff (as : List (String × List AssignedJob))
    (p : String × String) : 0 < pairCount as p ↔ p ∈ pairsOf as := by
  simp [pairCount, List.countP_pos_iff]

/-- The single master lemma on how one assignment changes the output pairs:
every countP goes up by the indicator of the new pair. -/
theorem countP_pairsOf_updateA (as : List (String × List AssignedJob))
    (u : String) (aj : AssignedJob) (q : String × String → Bool) :
    (pairsOf (updateA as u (lookupD as u [] ++ [aj]))).countP q =
      (pairsOf as).countP q + (if q (u, aj.job.jobId) then 1 else 0) := by
  induction as with
  | nil =>
    simp [pairsOf, updateA, lookupD, lookupA, List.countP_cons]
  | cons e rest ih =>
    obtain ⟨k, l⟩ := e
    by_cases hk : k = u
    · subst hk
      have hlook : lookupD ((k, l) :: rest) k [] = l := by
        simp [lookupD, lookupA]
      have hupd : updateA ((k, l) :: rest) k (lookupD ((k, l) :: rest) k [] ++ [aj]) =
          (k, l ++ [aj]) :: rest := by
        simp [updateA, hlook]
      rw [hupd, pairsOf_cons, pairsOf_cons]
      simp [List.countP_append, List.countP_cons]
      omega
    · have hlook : lookupD ((k, l) :: rest) u [] = lookupD rest u [] := by
        simp [lookupD, lookupA, hk]
      have hupd : updateA ((k, l) :: rest) u (lookupD ((k, l) :: rest) u [] ++ [aj]) =
          (k, l) :: updateA rest u (lookupD rest u [] ++ [aj]) := by
        simp [updateA, hk, hlook]
      rw [hupd, pairsOf_cons, pairsOf_cons]
      simp [List.countP_append, ih]
      omega

theorem length_pairsOf_updateA (as : List (String × List AssignedJob))
    (u : String) (aj : AssignedJob) :
    (pairsOf (updateA as u (lookupD as u [] ++ [aj]))).length =
      (pairsOf as).length + 1 := by
  have := countP_pairsOf_updateA as u aj (fun _ => true)
  simpa [List.countP_true] using this

theorem pairCount_updateA (as : List (String × List AssignedJob))
    (u : String) (aj : AssignedJob) (p : String × String) :
    pairCount (updateA as u (lookupD as u [] ++ [aj])) p =
      pairCount as p + (if p = (u, aj.job.jobId) then 1 else 0) := by
  have := countP_pairsOf_updateA as u aj (fun q => decide (q = p))
  simp only [pairCount, this]
  by_cases hp : (u, aj.job.jobId) = p
  · simp [hp]
  · have hp2 : ¬p = (u, aj.job.jobId) := fun h => hp h.symm
    simp [hp, hp2]

theorem jobAssignCount_updateA (as : List (String × List AssignedJob))
    (u : String) (aj : AssignedJob) (j : String) :
    jobAssignCount (updateA as u (lookupD as u [] ++ [aj])) j =
      jobAssignCount as j + (if aj.job.jobId = j then 1 else 0) := by
  have := countP_pairsOf_updateA as u aj (fun q => decide (q.2 = j))
  simp only [jobAssignCount, this]
  by_cases hp : aj.job.jobId = j <;> simp [hp]

theorem mem_pairsOf_updateA (as : List (String × List AssignedJob))
    (u : String) (aj : AssignedJob) (p : String × String)
    (h : p ∈ pairsOf as) :
    p ∈ pairsOf (updateA as u (lookupD as u [] ++ [aj])) := by
  rw [← pairCount_pos_iff] at h ⊢
  rw [pairCount_updateA]
  omega

theorem mem_pairsOf_updateA_iff (as : List (String × List AssignedJob))
    (u : String) (aj : AssignedJob) (p : String × String) :
    p ∈ pairsOf (updateA as u (lookupD as u [] ++ [aj])) ↔
      p ∈ pairsOf as ∨ p = (u, aj.job.jobId) := by
  rw [← pairCount_pos_iff, ← pairCount_pos_iff, pairCount_updateA]
  by_cases hp : p = (u, aj.job.jobId) <;> simp [hp]

/-- Setting a list position to its current value changes nothing. -/
theorem list_set_self {α : Type} :
    ∀ (l : List α) (i : ℕ) (hi : i < l.length), l.set i (l[i]) = l := by
  intro l
  induction l with
  | nil => intro i hi; simp at hi
  | cons x xs ih =>
    intro i hi
    cases i with
    | zero => simp
    | succ j =>
      simp only [List.set_cons_succ, List.getElem_cons_succ]
      rw [ih j (by simpa using Nat.lt_of_succ_lt_succ hi)]

/- Auxiliary facts about the init folds and key membership. -/

theorem lookupA_of_mem_keys {α : Type} (m : List (String × α)) (k : String)
    (h : k ∈ keysOf m) : ∃ v, lookupA m k = some v := by
  induction m with
  | nil => simp [keysOf] at h
  | cons p rest ih =>
    obtain ⟨k1, v1⟩ := p
    by_cases h1 : k1 = k
    · exact ⟨v1, by simp [lookupA, h1]⟩
    · have h2 : k ∈ keysOf rest := by
        rcases List.mem_cons.mp (by simpa [keysOf_cons] using h) with he | hm
        · exact absurd he.symm h1
        · exact hm
      obtain ⟨v, hv⟩ := ih h2
      exact ⟨v, by simp [lookupA, h1, hv]⟩

theorem foldl_updateA_keys_fresh {α β : Type} (f : β → String) (g : β → α) :
    ∀ (l : List β) (m : List (String × α)),
      (∀ x ∈ l, f x ∉ keysOf m) → (l.map f).Nodup →
      keysOf (l.foldl (fun acc x => updateA acc (f x) (g x)) m) =
        keysOf m ++ l.map f := by
  intro l
  induction l with
  | nil => intro m _ _; simp
  | cons x rest ih =>
    intro m hfresh hnd
    have h1 : f x ∉ keysOf m := hfresh x (by simp)
    have hkeys : keysOf (updateA m (f x) (g x)) = keysOf m ++ [f x] :=
      keysOf_updateA_of_not_mem m (f x) (g x) h1
    have hnd2 : (rest.map f).Nodup := (List.nodup_cons.mp (by simpa using hnd)).2
    have hxnot : f x ∉ rest.map f := (List.nodup_cons.mp (by simpa using hnd)).1
    have hfresh2 : ∀ y ∈ rest, f y ∉ keysOf (updateA m (f x) (g x)) := by
      intro y hy
      rw [hkeys]
      intro hmem
      rcases List.mem_append.mp hmem with hA | hB
      · exact hfresh y (List.mem_cons_of_mem _ hy) hA
      · have : f y = f x := by simpa using hB
        exact hxnot (this ▸ List.mem_map_of_mem f hy)
    simp only [List.foldl_cons]
    rw [ih (updateA m (f x) (g x)) hfresh2 hnd2, hkeys]
    simp

theorem pairsOf_eq_nil (as : List (String × List AssignedJob))
    (h : ∀ p ∈ as, p.2 = []) : pairsOf as = [] := by
  induction as with
  | nil => rfl
  | cons p rest ih =>
    rw [pairsOf_cons, h p (by simp)]
    simp [ih (fun q hq => h q (List.mem_cons_of_mem _ hq))]

theorem ShareInv_performAssign (ids : List String) (sf : ℕ)
    (hnd : ids.Nodup) (st : DistState) (u : String) (i : ℕ)
    (hi : i < st.jobs.length)
    (hassign : assignableTo st u (st.jobs[i]) = true)
    (h : ShareInv ids sf st) : ShareInv ids sf (performAssign st u i) := by
  obtain ⟨aj, hasgeq, hajJob, hjobs, hslots, hcounts⟩ := performAssign_spec st u i hi
  obtain ⟨hS1, hS2, hS3, hS4, hS5, hS6⟩ := h
  have hajid : aj.job.jobId = (st.jobs[i]).jobId := by rw [hajJob]
  obtain ⟨hslotpos, hnotmem⟩ :
      0 < lookupD st.job_slots (st.jobs[i]).jobId 0 ∧
        u ∉ (st.jobs[i]).appliedByUsers := by
    simpa [assignableTo] using hassign
  have hmapnd : (st.jobs.map Job.jobId).Nodup := by rw [hS1]; exact hnd
  have hjid_mem : (st.jobs[i]).jobId ∈ ids := by
    rw [← hS1]
    rw [← @List.getElem_map _ _ Job.jobId st.jobs i (by simpa using hi)]
    exact List.getElem_mem (by simpa using hi)
  have hpc0 : pairCount st.assignments (u, (st.jobs[i]).jobId) = 0 := by
    by_contra hne
    exact hnotmem (hS4 i hi u (Nat.pos_of_ne_zero hne))
  refine ⟨?_, ?_, ?_, ?_, ?_, ?_⟩
  · rw [hjobs, List.map_set]
    have hfield : Job.jobId
        { st.jobs[i] with
          appliedByUsers := (st.jobs[i]).appliedByUsers ++ [u] } =
        (st.jobs[i]).jobId := rfl
    rw [hfield, ← @List.getElem_map _ _ Job.jobId st.jobs i (by simpa using hi),
      list_set_self (st.jobs.map Job.jobId) i (by simpa using hi)]
    exact hS1
  · rw [hslots]
    rw [keysOf_updateA_of_mem _ _ _ (by rw [hS2]; exact hjid_mem)]
    exact hS2
  · intro p
    rw [hasgeq, pairCount_updateA, hajid]
    by_cases hp : p = (u, (st.jobs[i]).jobId)
    · rw [hp]
      simp [hpc0]
    · simp only [hp, if_false]
      simpa using hS3 p
  · intro i2 hi2 w hpos
    have hi2b : i2 < st.jobs.length := by
      rw [hjobs] at hi2
      simpa using hi2
    rw [hasgeq, pairCount_updateA, hajid] at hpos
    by_cases hii : i = i2
    · subst hii
      simp [hjobs, List.getElem_set] at hpos ⊢
      by_cases hw : w = u
      · simp [hw]
      · simp [hw] at hpos
        exact Or.inl (hS4 _ (by assumption) w (by simpa using hpos))
    · simp only [hjobs, List.getElem_set, if_neg hii] at hpos ⊢
      have hlen1 : i < (st.jobs.map Job.jobId).length := by simpa using hi
      have hlen2 : i2 < (st.jobs.map Job.jobId).length := by simpa using hi2b
      have hidne : ¬ (st.jobs[i2]).jobId = (st.jobs[i]).jobId := by
        intro he
        apply hii
        have hm1 : (st.jobs.map Job.jobId)[i] = (st.jobs.map Job.jobId)[i2] := by
          rw [@List.getElem_map _ _ Job.jobId st.jobs i hlen1,
            @List.getElem_map _ _ Job.jobId st.jobs i2 hlen2]
          exact he.symm
        exact (List.Nodup.getElem_inj_iff hmapnd).mp hm1
      have hne3 : ¬ ((w, (st.jobs[i2]).jobId) = (u, (st.jobs[i]).jobId)) := by
        simp [hidne]
      rw [if_neg hne3] at hpos
      exact hS4 i2 hi2b w (by simpa using hpos)
  · intro j hj
    rw [hasgeq, jobAssignCount_updateA, hajid, hslots]
    by_cases hjj : j = (st.jobs[i]).jobId
    · rw [hjj]
      have hlook : lookupD
          (updateA st.job_slots (st.jobs[i]).jobId
            (lookupD st.job_slots (st.jobs[i]).jobId 0 - 1)) (st.jobs[i]).jobId 0 =
          lookupD st.job_slots (st.jobs[i]).jobId 0 - 1 := by
        simp [lookupD, lookupA_updateA_self]
      rw [hlook, if_pos rfl]
      have h5 := hS5 (st.jobs[i]).jobId (hjj ▸ hj)
      omega
    · have hlook : lookupD
          (updateA st.job_slots (st.jobs[i]).jobId
            (lookupD st.job_slots (st.jobs[i]).jobId 0 - 1)) j 0 =
          lookupD st.job_slots j 0 := by
        simp [lookupD, lookupA_updateA_ne _ _ _ _ hjj]
      rw [hlook]
      have hne4 : ¬ (st.jobs[i]).jobId = j := fun he => hjj he.symm
      rw [if_neg hne4]
      exact hS5 j hj
  · intro p hp
    rw [hasgeq] at hp
    rcases (mem_pairsOf_updateA_iff _ _ _ _).mp hp with hmem | heq
    · exact hS6 p hmem
    · rw [heq]
      simpa [hajid] using hjid_mem

theorem ShareInv_init (sf : ℕ) (users : List User) (js : List Job)
    (hnd : (js.map Job.jobId).Nodup) :
    ShareInv (js.map Job.jobId) sf (initState sf users js) := by
  have hvals : ∀ p ∈ initAssignments users, p.2 = ([] : List AssignedJob) :=
    foldl_updateA_vals_const (fun user : User => user.uid) [] users [] (by simp)
  have hpairs : pairsOf (initAssignments users) = [] := pairsOf_eq_nil _ hvals
  have hkeys : keysOf (initSlots sf js) = js.map Job.jobId := by
    have := foldl_updateA_keys_fresh Job.jobId (fun _ => sf) js []
      (by simp [keysOf]) hnd
    simpa [initSlots, keysOf] using this
  have hslotvals : ∀ p ∈ initSlots sf js, p.2 = sf :=
    foldl_updateA_vals_const Job.jobId sf js [] (by simp)
  refine ⟨rfl, hkeys, ?_, ?_, ?_, ?_⟩
  · intro p
    simp [pairCount, initState, hpairs]
  · intro i hi u hpos
    simp [pairCount, initState, hpairs] at hpos
  · intro j hj
    have hjk : j ∈ keysOf (initSlots sf js) := by rw [hkeys]; exact hj
    obtain ⟨v, hv⟩ := lookupA_of_mem_keys _ _ hjk
    have hvsf : v = sf := hslotvals (j, v) (lookupA_mem _ _ _ hv)
    simp [jobAssignCount, initState, hpairs, lookupD, hv, hvsf]
  · intro p hp
    simp [initState, hpairs] at hp

theorem MutInv_performAssign (js : List Job) (st : DistState) (u : String)
    (i : ℕ) (hi : i < st.jobs.length) (h : MutInv js st) :
    MutInv js (performAssign st u i) := by
  obtain ⟨aj, hasgeq, hajJob, hjobs, hslots, hcounts⟩ := performAssign_spec st u i hi
  have hajid : aj.job.jobId = (st.jobs[i]).jobId := by rw [hajJob]
  obtain ⟨hlen, hidx⟩ := h
  have hmono : ∀ p, pairCount st.assignments p ≤
      pairCount (performAssign st u i).assignments p := by
    intro p
    rw [hasgeq, pairCount_updateA]
    omega
  refine ⟨?_, ?_⟩
  · rw [hjobs]
    simpa using hlen
  · intro i2 hi2 hj2
    have hi2b : i2 < st.jobs.length := by
      rw [hjobs] at hi2
      simpa using hi2
    obtain ⟨hid, extra, hext, hpairs⟩ := hidx i2 hi2b hj2
    by_cases hii : i = i2
    · subst hii
      refine ⟨?_, extra ++ [u], ?_, ?_⟩
      · simp only [hjobs, List.getElem_set, if_pos rfl]
        exact hid
      · simp only [hjobs, List.getElem_set, if_pos rfl]
        simp [hext]
      · intro w hw
        simp only [hjobs, List.getElem_set, if_pos rfl]
        rcases List.mem_append.mp hw with hA | hB
        · calc 0 < pairCount st.assignments (w, (st.jobs[i]).jobId) := hpairs w hA
            _ ≤ _ := hmono _
        · have hwu : w = u := by simpa using hB
          subst hwu
          rw [hasgeq, pairCount_updateA, hajid]
          simp
    · refine ⟨?_, extra, ?_, ?_⟩
      · simp only [hjobs, List.getElem_set, if_neg hii]
        exact hid
      · simp only [hjobs, List.getElem_set, if_neg hii]
        exact hext
      · intro w hw
        simp only [hjobs, List.getElem_set, if_neg hii]
        calc 0 < pairCount st.assignments (w, (st.jobs[i2]).jobId) := hpairs w hw
          _ ≤ _ := hmono _

theorem MutInv_init (sf : ℕ) (users : List User) (js : List Job) :
    MutInv js (initState sf users js) := by
  refine ⟨rfl, ?_⟩
  intro i hi hj
  exact ⟨rfl, [], by simp [initState], by simp⟩

/- The slot decrement is exactly one per assignment. -/

theorem totalSlots_performAssign_eq (st : DistState) (u : String) (i : ℕ)
    (hi : i < st.jobs.length)
    (hassign : assignableTo st u (st.jobs[i]) = true) :
    totalSlots (performAssign st u i) + 1 = totalSlots st := by
  obtain ⟨aj, hasgeq, hajJob, hjobs, hslots, hcounts⟩ := performAssign_spec st u i hi
  have hpos : 0 < lookupD st.job_slots (st.jobs[i]).jobId 0 := by
    simp [assignableTo] at hassign
    exact hassign.1
  cases hl : lookupA st.job_slots (st.jobs[i]).jobId with
  | none => simp [lookupD, hl] at hpos
  | some v =>
    have hv : lookupD st.job_slots (st.jobs[i]).jobId 0 = v := by
      simp [lookupD, hl]
    have := sumVals_updateA st.job_slots (st.jobs[i]).jobId v (v - 1) hl
    rw [hv] at hpos
    simp only [totalSlots, hslots, hv]
    omega

theorem TotInv_performAssign (n : ℕ) (st : DistState) (u : String) (i : ℕ)
    (hi : i < st.jobs.length)
    (hassign : assignableTo st u (st.jobs[i]) = true)
    (h : TotInv n st) : TotInv n (performAssign st u i) := by
  obtain ⟨aj, hasgeq, hajJob, hjobs, hslots, hcounts⟩ := performAssign_spec st u i hi
  have hslot := totalSlots_performAssign_eq st u i hi hassign
  unfold TotInv at h ⊢
  rw [hasgeq, length_pairsOf_updateA]
  omega

theorem AKeysInv_performAssign (ks : List String) (st : DistState)
    (u : String) (i : ℕ) (hi : i < st.jobs.length) (hk : u ∈ ks)
    (h : AKeysInv ks st) : AKeysInv ks (performAssign st u i) := by
  obtain ⟨aj, hasgeq, hajJob, hjobs, hslots, hcounts⟩ := performAssign_spec st u i hi
  unfold AKeysInv at h ⊢
  rw [hasgeq, keysOf_updateA_of_mem _ _ _ (by rw [h]; exact hk)]
  exact h

/- When a full round makes no assignment, every user is either at target or
has no assignable job in the current state. -/

theorem roundUsers_stuck (t : ℕ) :
    ∀ (us : List User) (st : DistState),
      roundUsers t us st false = (st, false) →
      ∀ u ∈ us, t ≤ lookupD st.user_counts u.uid 0 ∨
        findIdxP (assignableTo st u.uid) st.jobs = none := by
  intro us
  induction us with
  | nil => intro st _ u hu; simp at hu
  | cons user rest ih =>
    intro st h u hu
    by_cases h1 : t ≤ lookupD st.user_counts user.uid 0
    · have hred : roundUsers t (user :: rest) st false = roundUsers t rest st false := by
        simp [roundUsers, h1]
      rw [hred] at h
      rcases List.mem_cons.mp hu with rfl | hmem
      · exact Or.inl h1
      · exact ih st h u hmem
    · cases hf : findIdxP (assignableTo st user.uid) st.jobs with
      | none =>
        have hred : roundUsers t (user :: rest) st false = roundUsers t rest st false := by
          simp [roundUsers, h1, hf]
        rw [hred] at h
        rcases List.mem_cons.mp hu with rfl | hmem
        · exact Or.inr hf
        · exact ih st h u hmem
      | some i =>
        exfalso
        have hflag := roundUsers_flag_true t rest (performAssign st user.uid i)
        have hred : roundUsers t (user :: rest) st false =
            roundUsers t rest (performAssign st user.uid i) true := by
          simp [roundUsers, h1, hf]
        rw [hred] at h
        rw [h] at hflag
        exact Bool.false_ne_true hflag

/- Structural facts about pairsOf totals. -/

theorem length_pairsOf_eq_sum (as : List (String × List AssignedJob)) :
    (pairsOf as).length = (as.map (fun p => p.2.length)).sum := by
  induction as with
  | nil => rfl
  | cons p rest ih =>
    rw [pairsOf_cons]
    simp [ih]

theorem sum_map_const_one {α : Type} (l : List α) (f : α → ℕ)
    (h : ∀ x ∈ l, f x = 1) : (l.map f).sum = l.length := by
  induction l with
  | nil => rfl
  | cons x rest ih =>
    simp only [List.map_cons, List.sum_cons, h x (by simp), List.length_cons]
    rw [ih (fun y hy => h y (List.mem_cons_of_mem _ hy))]
    omega

/- Concrete evaluations of the mode selection needed by the scenarios. -/

theorem selectMode_10_5 : selectMode 10 5 = (3, 1) := by
  unfold selectMode TARGET_MAX TARGET_MIN MAX_SHARING
  norm_num

theorem selectMode_1_1 : selectMode 1 1 = (3, 3) := by
  unfold selectMode TARGET_MAX TARGET_MIN MAX_SHARING
  norm_num
  try rfl

theorem selectMode_2_50 : selectMode 2 50 = (1, 20) := by
  unfold selectMode TARGET_MAX TARGET_MIN MAX_SHARING
  norm_num

theorem selectMode_2_31 : selectMode 2 31 = (1, 15) := by
  unfold selectMode TARGET_MAX TARGET_MIN MAX_SHARING
  norm_num
  try rfl

/- Invariants carried to the final state of distributeCore. -/

theorem distributeCore_CountInv (users : List User) (js : List Job)
    (sf t : ℕ) : CountInv t (distributeCore users js sf t) := by
  exact loopRounds_preserves t users (CountInv t)
    (fun st u i _ hi hcnt _ hP => CountInv_performAssign t st u.uid i hi hcnt hP)
    _ _ (CountInv_init t sf users js)

theorem distributeCore_ShareInv (users : List User) (js : List Job)
    (sf t : ℕ) (hnd : (js.map Job.jobId).Nodup) :
    ShareInv (js.map Job.jobId) sf (distributeCore users js sf t) := by
  exact loopRounds_preserves t users (ShareInv (js.map Job.jobId) sf)
    (fun st u i _ hi _ hassign hP =>
      ShareInv_performAssign (js.map Job.jobId) sf hnd st u.uid i hi hassign hP)
    _ _ (ShareInv_init sf users js hnd)

theorem distributeCore_MutInv (users : List User) (js : List Job)
    (sf t : ℕ) : MutInv js (distributeCore users js sf t) := by
  exact loopRounds_preserves t users (MutInv js)
    (fun st u i _ hi _ _ hP => MutInv_performAssign js st u.uid i hi hP)
    _ _ (MutInv_init sf users js)

theorem distributeCore_TotInv (users : List User) (js : List Job)
    (sf t : ℕ) (hnd : (js.map Job.jobId).Nodup) :
    TotInv (sf * js.length) (distributeCore users js sf t) := by
  refine loopRounds_preserves t users (TotInv (sf * js.length))
    (fun st u i _ hi _ hassign hP =>
      TotInv_performAssign (sf * js.length) st u.uid i hi hassign hP)
    _ _ ?_
  unfold TotInv
  rw [totalSlots_init sf users js hnd]
  have hpairs : pairsOf (initAssignments users) = [] := pairsOf_eq_nil _
    (foldl_updateA_vals_const (fun user : User => user.uid) [] users [] (by simp))
  simp [initState, hpairs]

theorem distributeCore_AKeysInv (users : List User) (js : List Job)
    (sf t : ℕ) (hndu : (users.map User.uid).Nodup) :
    AKeysInv (users.map User.uid) (distributeCore users js sf t) := by
  refine loopRounds_preserves t users (AKeysInv (users.map User.uid))
    (fun st u i hmem hi _ _ hP =>
      AKeysInv_performAssign (users.map User.uid) st u.uid i hi
        (List.mem_map_of_mem User.uid hmem) hP)
    _ _ ?_
  unfold AKeysInv
  have := foldl_updateA_keys_fresh User.uid
    (fun _ => ([] : List AssignedJob)) users [] (by simp [keysOf]) hndu
  simpa [initState, initAssignments, keysOf] using this

theorem distributeCore_fixpoint (users : List User) (js : List Job)
    (sf t : ℕ) (hnd : (js.map Job.jobId).Nodup) :
    distRound t users (distributeCore users js sf t) =
      (distributeCore users js sf t, false) := by
  apply loopRounds_fixpoint
  rw [totalSlots_init sf users js hnd]
  omega

/- Unfolding distribute on non-empty inputs. -/

theorem distribute_nonempty (shuffle : List Job → List Job)
    (users : List User) (jobs : List Job) (hu : users ≠ []) (hj : jobs ≠ []) :
    DistributionEngine.distribute shuffle users jobs =
      { assignments :=
          (distributeCore users (shuffle jobs)
            (selectMode users.length (shuffle jobs).length).1
            (selectMode users.length (shuffle jobs).length).2).assignments
        jobsAfter :=
          (distributeCore users (shuffle jobs)
            (selectMode users.length (shuffle jobs).length).1
            (selectMode users.length (shuffle jobs).length).2).jobs } := by
  unfold DistributionEngine.distribute
  rw [if_neg]
  simp [List.isEmpty_iff, hu, hj]

/- Small structural facts feeding the saturation argument. -/

theorem pairsOf_mem_entry (as : List (String × List AssignedJob))
    (p : String × String) (hp : p ∈ pairsOf as) :
    ∃ l, (p.1, l) ∈ as ∧ 0 < l.length := by
  induction as with
  | nil => simp [pairsOf] at hp
  | cons e rest ih =>
    obtain ⟨k, l⟩ := e
    rw [pairsOf_cons] at hp
    rcases List.mem_append.mp hp with hA | hB
    · obtain ⟨aj, hajmem, haj⟩ := List.mem_map.mp hA
      refine ⟨l, ?_, ?_⟩
      · have hk : p.1 = k := by rw [← haj]
        rw [hk]
        exact List.mem_cons_self _ _
      · cases l with
        | nil => simp at hajmem
        | cons x xs => simp
    · obtain ⟨l2, hmem, hlen⟩ := ih hB
      exact ⟨l2, List.mem_cons_of_mem _ hmem, hlen⟩

theorem sumVals_eq_zero (m : List (String × ℕ)) (h : ∀ p ∈ m, p.2 = 0) :
    sumVals m = 0 := by
  induction m with
  | nil => rfl
  | cons p rest ih =>
    rw [sumVals_cons, h p (by simp), ih (fun q hq => h q (List.mem_cons_of_mem _ hq))]

theorem sum_map_le_length {α : Type} (l : List α) (f : α → ℕ)
    (h : ∀ x ∈ l, f x ≤ 1) : (l.map f).sum ≤ l.length := by
  induction l with
  | nil => simp
  | cons x rest ih =>
    simp only [List.map_cons, List.sum_cons, List.length_cons]
    have h1 := h x (by simp)
    have h2 := ih (fun y hy => h y (List.mem_cons_of_mem _ hy))
    omega

theorem assignableTo_false (st : DistState) (u : String) (job : Job)
    (h : assignableTo st u job = false) :
    lookupD st.job_slots job.jobId 0 = 0 ∨ u ∈ job.appliedByUsers := by
  by_cases hs : 0 < lookupD st.job_slots job.jobId 0
  · right
    simp [assignableTo, hs] at h
    exact h
  · left
    omega

/- Saturation: with empty applied histories, target one job per user and
more total slots than users, the loop ends with every user holding exactly
one job. -/

theorem distributeCore_saturates_one (users : List User) (js : List Job)
    (sf : ℕ) (hndu : (users.map User.uid).Nodup)
    (hndj : (js.map Job.jobId).Nodup)
    (happ : ∀ job ∈ js, job.appliedByUsers = [])
    (harith : users.length < sf * js.length) :
    ∀ user ∈ users,
      lookupD (distributeCore users js sf 1).user_counts user.uid 0 = 1 := by
  intro user hmem
  have hC := distributeCore_CountInv users js sf 1
  have hS := distributeCore_ShareInv users js sf 1 hndj
  have hM := distributeCore_MutInv users js sf 1
  have hT := distributeCore_TotInv users js sf 1 hndj
  have hA := distributeCore_AKeysInv users js sf 1 hndu
  have hF := distributeCore_fixpoint users js sf 1 hndj
  obtain ⟨hS1, hS2, hS3, hS4, hS5, hS6⟩ := hS
  have hbound := hC.2.2 user.uid
  by_cases hzero : lookupD (distributeCore users js sf 1).user_counts user.uid 0 = 0
  · exfalso
    have hstuck := roundUsers_stuck 1
      (sortByCounts (distributeCore users js sf 1).user_counts users)
      (distributeCore users js sf 1) hF user
      ((sortByCounts_perm _ users).mem_iff.mpr hmem)
    rcases hstuck with hge | hnone
    · omega
    · have hallfalse := findIdxP_none _ _ hnone
      -- every slot entry is zero
      have hentry : ∀ p ∈ (distributeCore users js sf 1).job_slots, p.2 = 0 := by
        intro p hp
        have hkey : p.1 ∈ js.map Job.jobId := by
          rw [← hS2]
          exact List.mem_map_of_mem Prod.fst hp
        have hkeynd : (keysOf (distributeCore users js sf 1).job_slots).Nodup := by
          rw [hS2]
          exact hndj
        have hlook : lookupA (distributeCore users js sf 1).job_slots p.1 = some p.2 :=
          lookupA_of_mem_nodup _ _ _ hp hkeynd
        obtain ⟨job, hjobmem, hjobid⟩ := List.mem_map.mp (hS1 ▸ hkey)
        rcases assignableTo_false _ _ _ (hallfalse job hjobmem) with hslot | happlied
        · rw [hjobid] at hslot
          rw [lookupD, hlook] at hslot
          simpa using hslot
        · exfalso
          obtain ⟨i, hi, hieq⟩ := List.mem_iff_getElem.mp hjobmem
          obtain ⟨hlen, hidx⟩ := hM
          have hj : i < js.length := by omega
          obtain ⟨hid, extra, hext, hpairs⟩ := hidx i hi hj
          have hjsapp : (js[i]).appliedByUsers = [] :=
            happ _ (List.getElem_mem hj)
          rw [hjsapp] at hext
          have hextra : user.uid ∈ extra := by
            rw [hieq] at hext
            rw [hext] at happlied
            simpa using happlied
          have hpc := hpairs user.uid hextra
          have hmempair := (pairCount_pos_iff _ _).mp hpc
          obtain ⟨l, hlmem, hlpos⟩ := pairsOf_mem_entry _ _ hmempair
          have hlook2 : lookupA (distributeCore users js sf 1).assignments user.uid = some l :=
            lookupA_of_mem_nodup _ _ _ hlmem hC.1
          have hcnt := hC.2.1 user.uid
          simp only [lookupD] at hcnt
          rw [hlook2] at hcnt
          simp at hcnt
          have hz2 : (lookupA (distributeCore users js sf 1).user_counts user.uid).getD 0 = 0 := by
            simpa [lookupD] using hzero
          omega
      have hslots0 : totalSlots (distributeCore users js sf 1) = 0 :=
        sumVals_eq_zero _ hentry
      have htot := hT
      unfold TotInv at htot
      rw [hslots0] at htot
      -- total pairs is at most the number of users
      have hle : (pairsOf (distributeCore users js sf 1).assignments).length ≤
          users.length := by
        rw [length_pairsOf_eq_sum]
        have hb : ∀ p ∈ (distributeCore users js sf 1).assignments,
            (fun q : String × List AssignedJob => q.2.length) p ≤ 1 := by
          intro p hp
          have hlook3 : lookupA (distributeCore users js sf 1).assignments p.1 = some p.2 :=
            lookupA_of_mem_nodup _ _ _ hp hC.1
          have hcnt := hC.2.1 p.1
          have hbnd := hC.2.2 p.1
          simp only [lookupD] at hcnt hbnd
          rw [hlook3] at hcnt
          simp at hcnt
          show p.2.length ≤ 1
          omega
        have := sum_map_le_length _ _ hb
        have hkeyslen : (distributeCore users js sf 1).assignments.length = users.length := by
          have h1 : keysOf (distributeCore users js sf 1).assignments = users.map User.uid := hA
          have h2 : (keysOf (distributeCore users js sf 1).assignments).length =
              (users.map User.uid).length := by rw [h1]
          simpa [keysOf] using h2
        omega
      omega
  · omega

theorem distributeCore_total_pairs_one (users : List User) (js : List Job)
    (sf : ℕ) (hndu : (users.map User.uid).Nodup)
    (hndj : (js.map Job.jobId).Nodup)
    (happ : ∀ job ∈ js, job.appliedByUsers = [])
    (harith : users.length < sf * js.length) :
    (pairsOf (distributeCore users js sf 1).assignments).length = users.length := by
  have hC := distributeCore_CountInv users js sf 1
  have hA := distributeCore_AKeysInv users js sf 1 hndu
  have hsat := distributeCore_saturates_one users js sf hndu hndj happ harith
  rw [length_pairsOf_eq_sum]
  have hone : ∀ p ∈ (distributeCore users js sf 1).assignments,
      (fun q : String × List AssignedJob => q.2.length) p = 1 := by
    intro p hp
    have hkey : p.1 ∈ users.map User.uid := by
      rw [← hA]
      exact List.mem_map_of_mem Prod.fst hp
    obtain ⟨user, humem, huid⟩ := List.mem_map.mp hkey
    have hlook : lookupA (distributeCore users js sf 1).assignments p.1 = some p.2 :=
      lookupA_of_mem_nodup _ _ _ hp hC.1
    have hcnt := hC.2.1 p.1
    simp only [lookupD] at hcnt
    rw [hlook] at hcnt
    simp at hcnt
    have hs := hsat user humem
    simp only [lookupD] at hs
    rw [huid] at hs
    show p.2.length = 1
    omega
  rw [sum_map_const_one _ _ hone]
  have h2 : (keysOf (distributeCore users js sf 1).assignments).length =
      (users.map User.uid).length := by rw [hA]
  simpa [keysOf] using h2

theorem distributeCore_jobAssignCount_le (users : List User) (js : List Job)
    (sf t : ℕ) (hndj : (js.map Job.jobId).Nodup) (j : String) :
    jobAssignCount (distributeCore users js sf t).assignments j ≤ sf := by
  obtain ⟨hS1, hS2, hS3, hS4, hS5, hS6⟩ := distributeCore_ShareInv users js sf t hndj
  by_cases hj : j ∈ js.map Job.jobId
  · have := hS5 j hj
    omega
  · by_contra hgt
    have hpos : 0 < (pairsOf (distributeCore users js sf t).assignments).countP
        (fun q => decide (q.2 = j)) := by
      have : 0 < jobAssignCount (distributeCore users js sf t).assignments j := by omega
      simpa [jobAssignCount] using this
    obtain ⟨q, hqmem, hq⟩ := List.countP_pos_iff.mp hpos
    have hq2 : q.2 = j := by simpa using hq
    exact hj (hq2 ▸ hS6 q hqmem)

/-- Claim C5: for non-empty users and jobs with ratio = jobs/users, the mode
selection follows the three thresholds (sharingFactor and targetPerUser as
stated), and no user is ever assigned more than targetPerUser jobs. -/
theorem C5_mode_thresholds_and_cap (shuffle : List Job → List Job)
    (users : List User) (jobs : List Job)
    (hperm : ∀ l, (shuffle l).Perm l) (hu : users ≠ []) (hj : jobs ≠ []) :
    (((TARGET_MAX : ℚ) ≤ ratioOf users.length jobs.length →
        selectMode users.length jobs.length = (1, TARGET_MAX)) ∧
      ((TARGET_MIN : ℚ) ≤ ratioOf users.length jobs.length →
        ratioOf users.length jobs.length < (TARGET_MAX : ℚ) →
        selectMode users.length jobs.length =
          (1, (⌊ratioOf users.length jobs.length⌋).toNat)) ∧
      (ratioOf users.length jobs.length < (TARGET_MIN : ℚ) →
        selectMode users.length jobs.length =
          (min (⌈(TARGET_MIN : ℚ) / ratioOf users.length jobs.length⌉).toNat
              MAX_SHARING,
            min TARGET_MIN
              (⌊ratioOf users.length jobs.length *
                ((min (⌈(TARGET_MIN : ℚ) /
                    ratioOf users.length jobs.length⌉).toNat MAX_SHARING : ℕ) :
                  ℚ)⌋).toNat))) ∧
    ∀ p ∈ (DistributionEngine.distribute shuffle users jobs).assignments,
      p.2.length ≤ (selectMode users.length jobs.length).2 := by
  have hlen : (shuffle jobs).length = jobs.length := (hperm jobs).length_eq
  constructor
  · refine ⟨?_, ?_, ?_⟩
    · intro h
      unfold ratioOf at h
      unfold selectMode
      rw [if_pos h]
    · intro h1 h2
      unfold ratioOf at h1 h2 ⊢
      unfold selectMode
      rw [if_neg (not_le.mpr h2), if_pos h1]
    · intro h
      unfold ratioOf at h
      unfold selectMode
      have hmm : (TARGET_MIN : ℚ) < (TARGET_MAX : ℚ) := by
        norm_num [TARGET_MIN, TARGET_MAX]
      rw [if_neg (not_le.mpr (lt_trans h hmm)), if_neg (not_le.mpr h)]
      rfl
  · intro p hp
    rw [distribute_nonempty shuffle users jobs hu hj] at hp
    rw [hlen] at hp
    exact CountInv_entries _ _
      (distributeCore_CountInv users (shuffle jobs)
        (selectMode users.length jobs.length).1
        (selectMode users.length jobs.length).2) p hp

theorem C5_mode_thresholds_and_cap_witness :
    ((sampleJob1.length : ℚ) / (sampleUser1.length : ℚ) < (TARGET_MIN : ℚ)) ∧
    selectMode sampleUser1.length sampleJob1.length =
      (min (⌈(TARGET_MIN : ℚ) /
          ratioOf sampleUser1.length sampleJob1.length⌉).toNat MAX_SHARING,
        min TARGET_MIN
          (⌊ratioOf sampleUser1.length sampleJob1.length *
            ((min (⌈(TARGET_MIN : ℚ) /
                ratioOf sampleUser1.length sampleJob1.length⌉).toNat
              MAX_SHARING : ℕ) : ℚ)⌋).toNat) :=
  ⟨by norm_num [sampleUser1, sampleJob1, TARGET_MIN],
    (C5_mode_thresholds_and_cap id sampleUser1 sampleJob1
        (fun l => List.Perm.refl l) (by simp [sampleUser1]) (by simp [sampleJob1])).1.2.2
      (by norm_num [ratioOf, sampleUser1, sampleJob1, TARGET_MIN])⟩

/-- Claim C6: in every distribute output, a job id occurs across all user
lists at most sharingFactor times (hence among that many distinct users),
and no (userId, jobId) pair occurs twice. -/
theorem C6_share_bound_and_pair_uniqueness (shuffle : List Job → List Job)
    (users : List User) (jobs : List Job)
    (hperm : ∀ l, (shuffle l).Perm l)
    (hndj : (jobs.map Job.jobId).Nodup) :
    (∀ j : String,
      jobAssignCount (DistributionEngine.distribute shuffle users jobs).assignments j ≤
        (selectMode users.length jobs.length).1) ∧
    (∀ p : String × String,
      pairCount (DistributionEngine.distribute shuffle users jobs).assignments p ≤ 1) := by
  by_cases hcase : users.isEmpty || jobs.isEmpty
  · have hd : DistributionEngine.distribute shuffle users jobs =
        { assignments := initAssignments users, jobsAfter := jobs } := by
      unfold DistributionEngine.distribute
      rw [if_pos hcase]
    have hpairs : pairsOf (initAssignments users) = [] := pairsOf_eq_nil _
      (foldl_updateA_vals_const (fun user : User => user.uid) [] users [] (by simp))
    rw [hd]
    constructor
    · intro j
      simp [jobAssignCount, hpairs]
    · intro p
      simp [pairCount, hpairs]
  · have hu : ¬ users.isEmpty := by
      revert hcase
      cases users.isEmpty <;> simp
    have hj : ¬ jobs.isEmpty := by
      revert hcase
      cases jobs.isEmpty <;> simp
    have hu2 : users ≠ [] := by simpa [List.isEmpty_iff] using hu
    have hj2 : jobs ≠ [] := by simpa [List.isEmpty_iff] using hj
    have hlen : (shuffle jobs).length = jobs.length := (hperm jobs).length_eq
    have hnds : ((shuffle jobs).map Job.jobId).Nodup :=
      (((hperm jobs).map Job.jobId).nodup_iff).mpr hndj
    rw [distribute_nonempty shuffle users jobs hu2 hj2, hlen]
    exact ⟨fun j => distributeCore_jobAssignCount_le users (shuffle jobs) _ _ hnds j,
      (distributeCore_ShareInv users (shuffle jobs) _ _ hnds).2.2.1⟩

theorem C6_share_bound_and_pair_uniqueness_witness :
    pairCount (DistributionEngine.distribute id sampleUsers10 sampleJobs5).assignments
      ("u0", "j0") ≤ 1 :=
  (C6_share_bound_and_pair_uniqueness id sampleUsers10 sampleJobs5
    (fun l => List.Perm.refl l) (by decide)).2 ("u0", "j0")

/-- Claim C8: the round loop of distribute terminates; the slot total starts
at sharingFactor times the job count, every round either strictly decreases
it (never increases it) or changes nothing, the fuelled loop result is
independent of any sufficient fuel, and the distributeCore result is a
fixpoint reached when a full round makes no assignment. -/
theorem C8_round_loop_terminates (users : List User) (js : List Job)
    (sf t : ℕ) (hndj : (js.map Job.jobId).Nodup) :
    totalSlots (initState sf users js) = sf * js.length ∧
    (∀ st : DistState,
      totalSlots (distRound t users st).1 ≤ totalSlots st ∧
      ((distRound t users st).2 = true →
        totalSlots (distRound t users st).1 < totalSlots st) ∧
      ((distRound t users st).2 = false → (distRound t users st).1 = st)) ∧
    (∀ fuel : ℕ, sf * js.length < fuel →
      loopRounds t users fuel (initState sf users js) =
        distributeCore users js sf t) ∧
    distRound t users (distributeCore users js sf t) =
      (distributeCore users js sf t, false) := by
  have hinit := totalSlots_init sf users js hndj
  refine ⟨hinit, ?_, ?_, ?_⟩
  · intro st
    exact ⟨roundUsers_slots_le t _ st false,
      fun h => distRound_lt_of_true t users st h,
      fun h => distRound_of_false t users st h⟩
  · intro fuel hfuel
    unfold distributeCore
    apply loopRounds_fuel_irrelevant <;> omega
  · exact distributeCore_fixpoint users js sf t hndj

theorem C8_round_loop_terminates_witness :
    distRound 3 sampleUser1 (distributeCore sampleUser1 sampleJob1 3 3) =
      (distributeCore sampleUser1 sampleJob1 3 3, false) :=
  (C8_round_loop_terminates sampleUser1 sampleJob1 3 3 (by decide)).2.2.2

/- Bridges from distribute to distributeCore on the sample pools with the
identity shuffle. -/

theorem distribute_id_sample1 :
    DistributionEngine.distribute id sampleUser1 sampleJob1 =
      { assignments := (distributeCore sampleUser1 sampleJob1 3 3).assignments
        jobsAfter := (distributeCore sampleUser1 sampleJob1 3 3).jobs } := by
  rw [distribute_nonempty id sampleUser1 sampleJob1 (by simp [sampleUser1])
    (by simp [sampleJob1])]
  rw [show id sampleJob1 = sampleJob1 from rfl,
    show sampleUser1.length = 1 from rfl, show sampleJob1.length = 1 from rfl,
    selectMode_1_1]

theorem distribute_id_sampleP5 :
    DistributionEngine.distribute id sampleUsers10 sampleJobs5 =
      { assignments := (distributeCore sampleUsers10 sampleJobs5 3 1).assignments
        jobsAfter := (distributeCore sampleUsers10 sampleJobs5 3 1).jobs } := by
  rw [distribute_nonempty id sampleUsers10 sampleJobs5 (by simp [sampleUsers10])
    (by simp [sampleJobs5])]
  rw [show id sampleJobs5 = sampleJobs5 from rfl,
    show sampleUsers10.length = 10 from rfl, show sampleJobs5.length = 5 from rfl,
    selectMode_10_5]

/-- Claim C4 counterexample: with one user and one job, distribute appends
the uid to the appliedByUsers list of the input job record, so the jobs
list after the call differs from the input. -/
theorem C4_purity_counterexample : ¬ distributeClaimPure := by
  intro h
  have hx := h id (fun l => List.Perm.refl l) sampleUser1 sampleJob1
  rw [distribute_id_sample1] at hx
  have hx2 : (distributeCore sampleUser1 sampleJob1 3 3).jobs = sampleJob1 := hx
  exact absurd hx2 (by decide)

theorem EmailInv_performAssign (js : List Job) (st : DistState) (u : String)
    (i : ℕ) (hi : i < st.jobs.length) (h : EmailInv js st) :
    EmailInv js (performAssign st u i) := by
  obtain ⟨aj, -, -, hjobs, -, -⟩ := performAssign_spec st u i hi
  obtain ⟨hlen, hidx⟩ := h
  refine ⟨by rw [hjobs]; simpa using hlen, ?_⟩
  intro i2 hi2 hj2
  have hi2b : i2 < st.jobs.length := by
    rw [hjobs] at hi2
    simpa using hi2
  by_cases hii : i = i2
  · subst hii
    simp only [hjobs, List.getElem_set, if_pos rfl]
    exact hidx i hi2b hj2
  · simp only [hjobs, List.getElem_set, if_neg hii]
    exact hidx i2 hi2b hj2

theorem EmailInv_init (sf : ℕ) (users : List User) (js : List Job) :
    EmailInv js (initState sf users js) :=
  ⟨rfl, fun i hi hj => rfl⟩

theorem distributeCore_EmailInv (users : List User) (js : List Job)
    (sf t : ℕ) : EmailInv js (distributeCore users js sf t) := by
  exact loopRounds_preserves t users (EmailInv js)
    (fun st u i _ hi _ _ hP => EmailInv_performAssign js st u.uid i hi hP)
    _ _ (EmailInv_init sf users js)

/-- Claim C4 (amended): distribute is not pure on jobs. The list after the
call is the shuffled input (its ids a permutation of the input ids), with
every record keeping the jobId and recruiterEmail of the shuffled record at
its position, and its appliedByUsers list equal to the original one extended
by the appended uids: every appended uid holds an assignment pair for that
job in the returned map, and conversely every user with an assignment pair
for that job appears in the post-state appliedByUsers list. -/
theorem C4_mutation_amended (shuffle : List Job → List Job)
    (users : List User) (jobs : List Job)
    (hperm : ∀ l, (shuffle l).Perm l) (hu : users ≠ []) (hj : jobs ≠ [])
    (hnd : (jobs.map Job.jobId).Nodup) :
    (DistributionEngine.distribute shuffle users jobs).jobsAfter.map Job.jobId =
      (shuffle jobs).map Job.jobId ∧
    ((shuffle jobs).map Job.jobId).Perm (jobs.map Job.jobId) ∧
    ∀ i, ∀ hi : i < (DistributionEngine.distribute shuffle users jobs).jobsAfter.length,
      ∀ hs : i < (shuffle jobs).length,
      ((DistributionEngine.distribute shuffle users jobs).jobsAfter[i]).recruiterEmail =
        ((shuffle jobs)[i]).recruiterEmail ∧
      (∃ extra,
        ((DistributionEngine.distribute shuffle users jobs).jobsAfter[i]).appliedByUsers =
          ((shuffle jobs)[i]).appliedByUsers ++ extra ∧
        ∀ u ∈ extra,
          0 < pairCount (DistributionEngine.distribute shuffle users jobs).assignments
            (u, ((shuffle jobs)[i]).jobId)) ∧
      ∀ u : String,
        0 < pairCount (DistributionEngine.distribute shuffle users jobs).assignments
          (u, ((shuffle jobs)[i]).jobId) →
        u ∈ ((DistributionEngine.distribute shuffle users jobs).jobsAfter[i]).appliedByUsers := by
  rw [distribute_nonempty shuffle users jobs hu hj]
  have hndS : ((shuffle jobs).map Job.jobId).Nodup :=
    ((hperm jobs).map Job.jobId).nodup_iff.mpr hnd
  obtain ⟨hlen, hidx⟩ := distributeCore_MutInv users (shuffle jobs)
    (selectMode users.length (shuffle jobs).length).1
    (selectMode users.length (shuffle jobs).length).2
  obtain ⟨-, hidxE⟩ := distributeCore_EmailInv users (shuffle jobs)
    (selectMode users.length (shuffle jobs).length).1
    (selectMode users.length (shuffle jobs).length).2
  obtain ⟨-, -, -, hmem, -, -⟩ := distributeCore_ShareInv users (shuffle jobs)
    (selectMode users.length (shuffle jobs).length).1
    (selectMode users.length (shuffle jobs).length).2 hndS
  refine ⟨?_, (hperm jobs).map Job.jobId, ?_⟩
  · apply List.ext_getElem
    · simpa using hlen
    · intro i h1 h2
      have hib : i < (distributeCore users (shuffle jobs)
          (selectMode users.length (shuffle jobs).length).1
          (selectMode users.length (shuffle jobs).length).2).jobs.length := by
        simpa using h1
      have hjb : i < (shuffle jobs).length := by simpa using h2
      obtain ⟨hid, -⟩ := hidx i hib hjb
      simp only [List.getElem_map]
      exact hid
  · intro i hi hs
    have hib : i < (distributeCore users (shuffle jobs)
        (selectMode users.length (shuffle jobs).length).1
        (selectMode users.length (shuffle jobs).length).2).jobs.length := by
      simpa using hi
    obtain ⟨hid, extra, hext, hpairs⟩ := hidx i hib hs
    refine ⟨hidxE i hib hs, ⟨extra, hext, ?_⟩, ?_⟩
    · intro u hu2
      have := hpairs u hu2
      rw [hid] at this
      exact this
    · intro u hpc
      have hpc2 : 0 < pairCount (distributeCore users (shuffle jobs)
          (selectMode users.length (shuffle jobs).length).1
          (selectMode users.length (shuffle jobs).length).2).assignments
          (u, ((distributeCore users (shuffle jobs)
            (selectMode users.length (shuffle jobs).length).1
            (selectMode users.length (shuffle jobs).length).2).jobs[i]).jobId) := by
        rw [hid]
        exact hpc
      exact hmem i hib u hpc2

theorem C4_mutation_amended_witness :
    (DistributionEngine.distribute id sampleUser1 sampleJob1).jobsAfter.map
      Job.jobId = (id sampleJob1).map Job.jobId :=
  (C4_mutation_amended id sampleUser1 sampleJob1 (fun l => List.Perm.refl l)
    (by simp [sampleUser1]) (by simp [sampleJob1])
    (by simp [sampleJob1])).1

/-- Claim C2 counterexample: on a concrete 10-user, 5-job pool with empty
histories and the identity shuffle, the output has 10 assignment pairs, not
15: targetPerUser = min(15, floor(0.5 x 3)) = 1 caps every user at one job. -/
theorem C2_P5_counterexample : ¬ distributeClaimP5 := by
  intro h
  obtain ⟨-, h15, -⟩ := h id (fun l => List.Perm.refl l) sampleUsers10 sampleJobs5
    rfl rfl (by decide) (by decide) (by decide)
  rw [distribute_id_sampleP5] at h15
  have h15b : (pairsOf (distributeCore sampleUsers10 sampleJobs5 3 1).assignments).length = 15 := h15
  have h10 : (pairsOf (distributeCore sampleUsers10 sampleJobs5 3 1).assignments).length = 10 := by
    decide
  omega

/-- Claim C2 (amended): for 10 users and 5 jobs with distinct ids and no
prior applications, distribute selects sharingFactor = 3 but
targetPerUser = min(15, floor(0.5 x 3)) = 1, so each user receives exactly
one job, 10 assignment pairs in total, and each job goes to at most 3
distinct users. -/
theorem C2_P5_amended (shuffle : List Job → List Job)
    (users : List User) (jobs : List Job) (hperm : ∀ l, (shuffle l).Perm l)
    (hlu : users.length = 10) (hlj : jobs.length = 5)
    (hndu : (users.map User.uid).Nodup) (hndj : (jobs.map Job.jobId).Nodup)
    (happ : ∀ job ∈ jobs, job.appliedByUsers = []) :
    selectMode users.length jobs.length = (3, 1) ∧
    (∀ user ∈ users,
      (lookupD (DistributionEngine.distribute shuffle users jobs).assignments
        user.uid []).length = 1) ∧
    (pairsOf (DistributionEngine.distribute shuffle users jobs).assignments).length = 10 ∧
    (∀ j : String,
      jobAssignCount (DistributionEngine.distribute shuffle users jobs).assignments j ≤ 3) := by
  have hu : users ≠ [] := by
    intro he
    rw [he] at hlu
    simp at hlu
  have hj : jobs ≠ [] := by
    intro he
    rw [he] at hlj
    simp at hlj
  have hlen : (shuffle jobs).length = jobs.length := (hperm jobs).length_eq
  have hnds : ((shuffle jobs).map Job.jobId).Nodup :=
    (((hperm jobs).map Job.jobId).nodup_iff).mpr hndj
  have happs : ∀ job ∈ shuffle jobs, job.appliedByUsers = [] :=
    fun job hm => happ job ((hperm jobs).mem_iff.mp hm)
  have harith : users.length < 3 * (shuffle jobs).length := by
    rw [hlu, hlen, hlj]
    norm_num
  have hmode : selectMode users.length jobs.length = (3, 1) := by
    rw [hlu, hlj]
    exact selectMode_10_5
  refine ⟨hmode, ?_, ?_, ?_⟩
  · intro user hm
    rw [distribute_nonempty shuffle users jobs hu hj, hlen, hmode]
    show (lookupD (distributeCore users (shuffle jobs) 3 1).assignments
      user.uid []).length = 1
    have hsat := distributeCore_saturates_one users (shuffle jobs) 3 hndu hnds
      happs harith user hm
    have hcnt := (distributeCore_CountInv users (shuffle jobs) 3 1).2.1 user.uid
    omega
  · rw [distribute_nonempty shuffle users jobs hu hj, hlen, hmode]
    show (pairsOf (distributeCore users (shuffle jobs) 3 1).assignments).length = 10
    rw [← hlu]
    exact distributeCore_total_pairs_one users (shuffle jobs) 3 hndu hnds happs harith
  · intro j
    rw [distribute_nonempty shuffle users jobs hu hj, hlen, hmode]
    show jobAssignCount (distributeCore users (shuffle jobs) 3 1).assignments j ≤ 3
    exact distributeCore_jobAssignCount_le users (shuffle jobs) 3 1 hnds j

theorem C2_P5_amended_witness :
    (pairsOf (DistributionEngine.distribute id sampleUsers10 sampleJobs5).assignments).length = 10 :=
  (C2_P5_amended id sampleUsers10 sampleJobs5 (fun l => List.Perm.refl l)
    rfl rfl (by decide) (by decide) (by decide)).2.2.1

/- Characterization of one worker execution. -/

theorem send_ledger_of_reaches (env : WorkerEnv) (r : ℕ) (uid jid : String)
    (h : reachesSend env = true) :
    (send_application_email env r uid jid).ledgerWrites =
      [{ userId := uid, jobId := jid
         status := if env.smtp.success then "sent" else "failed"
         errorMessage := env.smtp.error, retryCount := r }] := by
  obtain ⟨db, lock, ud, jd, already, comp, dec, succ, resp, err⟩ := env
  simp only [reachesSend, validRecipient, Bool.and_eq_true] at h
  obtain ⟨⟨⟨⟨⟨⟨⟨⟨hdb, hlock⟩, hud⟩, hjd⟩, hvalid⟩, halready⟩, hcomp⟩, hpw⟩, hdec⟩ := h
  subst hdb
  subst hlock
  have hb : already = false := by simpa using halready
  subst hb
  rcases ud with _ | ⟨em, pw, ru⟩
  · simp at hud
  · rcases jd with _ | ⟨⟨remail⟩⟩
    · simp at hjd
    · rcases comp with cm | c
      · simp at hcomp
      · rcases pw with _ | pwv
        · simp at hpw
        · rcases dec with dm | dv
          · simp at hdec
          · simp only [Bool.and_eq_true, beq_iff_eq] at hvalid
            have hv : ¬ (strStrip remail = "" ∨
                ¬ strHasChar (strStrip remail) '@' = true) := by
              simp only [not_or, not_not]
              exact ⟨by simpa using hvalid.1, hvalid.2⟩
            cases succ <;>
              simp [send_application_email, retryHandler, hv] <;>
              (repeat' split) <;> simp_all

theorem send_ledger_of_not_reaches (env : WorkerEnv) (r : ℕ) (uid jid : String)
    (h : reachesSend env = false) :
    (send_application_email env r uid jid).ledgerWrites = [] := by
  obtain ⟨db, lock, ud, jd, already, comp, dec, succ, resp, err⟩ := env
  cases db <;> cases lock <;> cases already <;>
    rcases ud with _ | ⟨em, _ | pw, ru⟩ <;>
    rcases jd with _ | ⟨⟨remail⟩⟩ <;>
    rcases comp with cm | c <;>
    rcases dec with dm | d <;>
    simp_all [send_application_email, reachesSend, validRecipient, retryHandler] <;>
    (repeat' split) <;> (try simp_all)

theorem send_lockHeld (env : WorkerEnv) (r : ℕ) (uid jid : String) :
    (send_application_email env r uid jid).lockHeldAfter =
      (!env.lockAvailable || env.dbInitialized) := by
  obtain ⟨db, lock, ud, jd, already, comp, dec, succ, resp, err⟩ := env
  cases db <;> cases lock <;>
    simp [send_application_email, retryHandler] <;>
    (repeat' split) <;> (try rfl)

theorem send_skip_duplicate (env : WorkerEnv) (r : ℕ) (uid jid : String)
    (hdb : env.dbInitialized = true) (hlock : env.lockAvailable = false) :
    (send_application_email env r uid jid).outcome =
      TaskOutcome.ret "skipped" (some "duplicate_lock") := by
  simp [send_application_email, hdb, hlock]

theorem send_transient_retry (env : WorkerEnv) (r : ℕ) (uid jid : String)
    (h : transientFailureEnv env = true) (hr : r < 3) :
    (send_application_email env r uid jid).outcome =
      TaskOutcome.retryAt (60 * 2 ^ r) := by
  obtain ⟨db, lock, ud, jd, already, comp, dec, succ, resp, err⟩ := env
  simp only [transientFailureEnv, validRecipient, Bool.and_eq_true] at h
  obtain ⟨⟨⟨⟨⟨⟨hdb, hlock⟩, hud⟩, hjd⟩, hvalid⟩, halready⟩, hrest⟩ := h
  subst hdb
  subst hlock
  have hb : already = false := by simpa using halready
  subst hb
  rcases ud with _ | ⟨em, pw, ru⟩
  · simp at hud
  · rcases jd with _ | ⟨⟨remail⟩⟩
    · simp at hjd
    · simp only [Bool.and_eq_true, beq_iff_eq] at hvalid
      have hv : ¬ (strStrip remail = "" ∨
          strHasChar (strStrip remail) '@' = false) := by
        simp only [not_or]
        exact ⟨by simpa using hvalid.1, by simp [hvalid.2]⟩
      rcases comp with cm | c
      · simp [send_application_email, retryHandler, hv, hr]
      · simp only [Bool.and_eq_true] at hrest
        obtain ⟨⟨⟨hpw, hdec⟩, hsucc⟩, hauth⟩ := hrest
        rcases pw with _ | pwv
        · simp at hpw
        · rcases dec with dm | dv
          · simp at hdec
          · have hs : succ = false := by simpa using hsucc
            subst hs
            have ha : ¬ (strIn "Authentication" (err.getD "") = true ∨
                strIn "535" (err.getD "") = true) := by
              simpa using hauth
            simp [send_application_email, retryHandler, hv, hr, ha]

theorem send_transient_exhaust (env : WorkerEnv) (r : ℕ) (uid jid : String)
    (h : transientFailureEnv env = true) (hr : 3 ≤ r) :
    (send_application_email env r uid jid).outcome =
      TaskOutcome.ret "failed" (some "max_retries") ∧
    (send_application_email env r uid jid).errorLogs = ["unknown"] := by
  obtain ⟨db, lock, ud, jd, already, comp, dec, succ, resp, err⟩ := env
  simp only [transientFailureEnv, validRecipient, Bool.and_eq_true] at h
  obtain ⟨⟨⟨⟨⟨⟨hdb, hlock⟩, hud⟩, hjd⟩, hvalid⟩, halready⟩, hrest⟩ := h
  subst hdb
  subst hlock
  have hb : already = false := by simpa using halready
  subst hb
  have hr2 : ¬ r < 3 := by omega
  rcases ud with _ | ⟨em, pw, ru⟩
  · simp at hud
  · rcases jd with _ | ⟨⟨remail⟩⟩
    · simp at hjd
    · simp only [Bool.and_eq_true, beq_iff_eq] at hvalid
      have hv : ¬ (strStrip remail = "" ∨
          strHasChar (strStrip remail) '@' = false) := by
        simp only [not_or]
        exact ⟨by simpa using hvalid.1, by simp [hvalid.2]⟩
      rcases comp with cm | c
      · simp [send_application_email, retryHandler, hv, hr2]
      · simp only [Bool.and_eq_true] at hrest
        obtain ⟨⟨⟨hpw, hdec⟩, hsucc⟩, hauth⟩ := hrest
        rcases pw with _ | pwv
        · simp at hpw
        · rcases dec with dm | dv
          · simp at hdec
          · have hs : succ = false := by simpa using hsucc
            subst hs
            have ha : ¬ (strIn "Authentication" (err.getD "") = true ∨
                strIn "535" (err.getD "") = true) := by
              simpa using hauth
            simp [send_application_email, retryHandler, hv, hr2, ha]

/-- Claim C1 counterexample: a transient (non-auth) transport failure at
retry 0 writes the status=failed ledger row at line 130 and then requeues
the task, so a retried attempt does commit a ledger row. -/
theorem C1_ledger_counterexample : ¬ workerLedgerClaimStated := by
  intro h
  have h1 := (h envTransient 0 "u" "j").1 60 (by decide)
  exact absurd h1 (by decide)

/-- Claim C1 (amended): an ApplicationRecord is committed by exactly the
attempts that reach the SMTP send, one row per such attempt with status
sent on transport success and failed otherwise, including transient
failures that will be retried; attempts ending before the send (lock skip,
missing documents, invalid recipient, dedup skip, composer failure,
credential failures) and the retry-exhaustion path write no row. -/
theorem C1_ledger_amended (env : WorkerEnv) (r : ℕ) (uid jid : String) :
    (send_application_email env r uid jid).ledgerWrites =
      if reachesSend env = true then
        [{ userId := uid, jobId := jid
           status := if env.smtp.success then "sent" else "failed"
           errorMessage := env.smtp.error, retryCount := r }]
      else [] := by
  by_cases h : reachesSend env = true
  · rw [if_pos h]
    exact send_ledger_of_reaches env r uid jid h
  · rw [if_neg h]
    have h2 : reachesSend env = false := by
      revert h
      cases reachesSend env <;> simp
    exact send_ledger_of_not_reaches env r uid jid h2

/-- Claim C3 counterexample: when the retry limit is exhausted after a
composer failure, the task only logs to the system log and returns
failed, max_retries; no ApplicationRecord is written at all. -/
theorem C3_retry_counterexample : ¬ workerRetryClaimStated := by
  intro h
  obtain ⟨-, rec, hmem, -⟩ := (h envComposerFail 3 "u" "j" (by decide)).2 (by omega)
  have hled : (send_application_email envComposerFail 3 "u" "j").ledgerWrites = [] := by
    decide
  rw [hled] at hmem
  simp at hmem

/-- Claim C3 (amended): every transient failure (composer failure or
non-auth transport failure) requeues with countdown 60 * 2 ^ retryCount up
to 3 retries; on exceeding the limit the task logs the error to the system
log and returns failed, max_retries without writing a max_retries
ApplicationRecord: the only row, present exactly when the attempt reached
the SMTP send, is the per-attempt status=failed row. -/
theorem C3_retry_amended (env : WorkerEnv) (r : ℕ) (uid jid : String)
    (htrans : transientFailureEnv env = true) :
    (r < 3 → (send_application_email env r uid jid).outcome =
      TaskOutcome.retryAt (60 * 2 ^ r)) ∧
    (3 ≤ r →
      (send_application_email env r uid jid).outcome =
        TaskOutcome.ret "failed" (some "max_retries") ∧
      (send_application_email env r uid jid).errorLogs = ["unknown"] ∧
      (send_application_email env r uid jid).ledgerWrites =
        (if reachesSend env = true then
          [{ userId := uid, jobId := jid
             status := if env.smtp.success then "sent" else "failed"
             errorMessage := env.smtp.error, retryCount := r }]
        else [])) := by
  constructor
  · intro hr
    exact send_transient_retry env r uid jid htrans hr
  · intro hr
    obtain ⟨hout, hlog⟩ := send_transient_exhaust env r uid jid htrans hr
    refine ⟨hout, hlog, ?_⟩
    by_cases h : reachesSend env = true
    · rw [if_pos h]
      exact send_ledger_of_reaches env r uid jid h
    · rw [if_neg h]
      have h2 : reachesSend env = false := by
        revert h
        cases reachesSend env <;> simp
      exact send_ledger_of_not_reaches env r uid jid h2

theorem C3_retry_amended_witness :
    transientFailureEnv envComposerFail = true ∧
    (send_application_email envComposerFail 0 "u" "j").outcome =
      TaskOutcome.retryAt (60 * 2 ^ 0) :=
  ⟨by decide, (C3_retry_amended envComposerFail 0 "u" "j" (by decide)).1 (by omega)⟩

/-- Claim C9: the worker never releases the email_lock key it sets: after a
successful acquisition the key is still set whatever the outcome (it is
also still set when acquisition failed because another holder set it), and
a delivery that finds the key present ends as SKIPPED(duplicate_lock);
expiry is left to the 600 second TTL on the SET NX EX call. -/
theorem C9_lock_never_released (env : WorkerEnv) (r : ℕ) (uid jid : String) :
    (send_application_email env r uid jid).lockHeldAfter =
      (!env.lockAvailable || env.dbInitialized) ∧
    (env.dbInitialized = true → env.lockAvailable = false →
      (send_application_email env r uid jid).outcome =
        TaskOutcome.ret "skipped" (some "duplicate_lock")) :=
  ⟨send_lockHeld env r uid jid, send_skip_duplicate env r uid jid⟩

theorem C9_lock_never_released_witness :
    ({ envTransient with lockAvailable := false } : WorkerEnv).dbInitialized = true ∧
    (send_application_email { envTransient with lockAvailable := false } 0 "u" "j").outcome =
      TaskOutcome.ret "skipped" (some "duplicate_lock") :=
  ⟨by decide,
    (C9_lock_never_released { envTransient with lockAvailable := false } 0 "u" "j").2
      (by decide) (by decide)⟩

/-- Claim C10: send_via_smtp is total and never propagates an exception:
every outcome is a value, either the success dict with response 250 OK or
a failure dict carrying the stringified error; and a failed resume
download alone does not make the call unsuccessful: the email still goes
out, without the attachment. -/
theorem C10_send_via_smtp_total (env : SmtpEnv)
    (user_smtp user_password recipient subject body : String) :
    (((send_via_smtp env user_smtp user_password recipient subject body).1.success = true ∧
      (send_via_smtp env user_smtp user_password recipient subject body).1.response = some "250 OK" ∧
      (send_via_smtp env user_smtp user_password recipient subject body).1.error = none) ∨
    ((send_via_smtp env user_smtp user_password recipient subject body).1.success = false ∧
      ∃ e, (send_via_smtp env user_smtp user_password recipient subject body).1.error = some e)) ∧
    (env.transport = Except.ok () →
      (send_via_smtp env user_smtp user_password recipient subject body).1 =
        { success := true, response := some "250 OK", error := none }) ∧
    (∀ e, env.transport = Except.error e →
      (send_via_smtp env user_smtp user_password recipient subject body).1 =
        { success := false, response := none, error := some e }) ∧
    (env.transport = Except.ok () → resumeBytesOf env = none →
      (send_via_smtp env user_smtp user_password recipient subject body).1.success = true ∧
      (send_via_smtp env user_smtp user_password recipient subject body).2 =
        some { sender := user_smtp, recipient := recipient, subject := subject
               hasAttachment := false }) := by
  refine ⟨?_, ?_, ?_, ?_⟩
  · cases ht : env.transport with
    | ok u => left; simp [send_via_smtp, ht]
    | error e => right; simp [send_via_smtp, ht]
  · intro hok
    simp [send_via_smtp, hok]
  · intro e he
    simp [send_via_smtp, he]
  · intro hok hfail
    constructor <;> simp [send_via_smtp, hok, hfail]

theorem C10_send_via_smtp_total_witness :
    envResumeFail.transport = Except.ok () ∧
    resumeBytesOf envResumeFail = none ∧
    (send_via_smtp envResumeFail "u@x.com" "pw" "r@x.com" "subject" "body").1.success = true ∧
    (send_via_smtp envResumeFail "u@x.com" "pw" "r@x.com" "subject" "body").2 =
      some { sender := "u@x.com", recipient := "r@x.com", subject := "subject"
             hasAttachment := false } := by
  refine ⟨rfl, by decide, ?_⟩
  have h := (C10_send_via_smtp_total envResumeFail
    "u@x.com" "pw" "r@x.com" "subject" "body").2.2.2 rfl (by decide)
  exact h

/-- Claim C7 counterexample: random.randint(0, 600) includes 600, so with a
draw stream returning 600 the user offset is 600, outside [0, 600): the
interval is closed, not half-open. -/
theorem C7_scheduler_counterexample : ¬ schedulerClaimStated := by
  intro h
  have h1 := h (fun _ => 600) sampleAssignment
  have h2 := h1 (("u",
    [{ userId := "u", jobId := "x", user_offset := 600, base_delay := 177
       stagger := 0, countdown := 777 }]) : String × List QueuedSend) (by decide)
  have h3 := h2 { userId := "u", jobId := "x", user_offset := 600
                  base_delay := 177, stagger := 0, countdown := 777 } (by decide)
  exact absurd h3.2 (by decide)

theorem randint_le (lo hi d : ℕ) (h : lo ≤ hi) : randint lo hi d ≤ hi := by
  unfold randint
  have h2 : d % (hi - lo + 1) < hi - lo + 1 := Nat.mod_lt d (by omega)
  omega

theorem scheduleJobs_spec (g : ℕ → ℕ) (uid : String) (off : ℕ) :
    ∀ (ajs : List AssignedJob) (i0 k : ℕ),
      (scheduleJobs g uid off ajs i0 k).1.length = ajs.length ∧
      ∀ j, ∀ hj : j < (scheduleJobs g uid off ajs i0 k).1.length,
        ∀ ha : j < ajs.length,
        ((scheduleJobs g uid off ajs i0 k).1[j]).userId = uid ∧
        ((scheduleJobs g uid off ajs i0 k).1[j]).user_offset = off ∧
        ((scheduleJobs g uid off ajs i0 k).1[j]).jobId = (ajs[j]).job.jobId ∧
        ((scheduleJobs g uid off ajs i0 k).1[j]).countdown =
          ((scheduleJobs g uid off ajs i0 k).1[j]).user_offset +
            ((scheduleJobs g uid off ajs i0 k).1[j]).base_delay +
            ((scheduleJobs g uid off ajs i0 k).1[j]).stagger ∧
        (∃ d, ((scheduleJobs g uid off ajs i0 k).1[j]).base_delay =
          randint 120 300 d * (i0 + j + 1)) ∧
        ((ajs[j]).share_position = 0 →
          ((scheduleJobs g uid off ajs i0 k).1[j]).stagger = 0) := by
  intro ajs
  induction ajs with
  | nil =>
    intro i0 k
    exact ⟨rfl, fun j hj ha => by simp at ha⟩
  | cons aj rest ih =>
    intro i0 k
    constructor
    · simp only [scheduleJobs, List.length_cons]
      rw [(ih _ _).1]
    · intro j hj ha
      cases j with
      | zero =>
        refine ⟨rfl, rfl, rfl, rfl, ⟨g k, ?_⟩, ?_⟩
        · simp [scheduleJobs]
        · intro hp
          simp only [List.getElem_cons_zero] at hp
          simp [scheduleJobs, hp, STAGGER_RANGES]
      | succ j2 =>
        have ha2 : j2 < rest.length := by simpa using Nat.lt_of_succ_lt_succ ha
        simp only [scheduleJobs, List.getElem_cons_succ]
        by_cases hc : 0 < (STAGGER_RANGES.getD
            (min aj.share_position (STAGGER_RANGES.length - 1)) (0, 0)).2
        · simp only [if_pos hc]
          have hj2 : j2 < (scheduleJobs g uid off rest (i0 + 1) (k + 2)).1.length := by
            rw [(ih (i0 + 1) (k + 2)).1]
            exact ha2
          obtain ⟨p1, p2, p3, p4, ⟨d, p5⟩, p6⟩ := (ih (i0 + 1) (k + 2)).2 j2 hj2 ha2
          refine ⟨p1, p2, p3, p4, ⟨d, ?_⟩, p6⟩
          rw [p5]
          ring
        · simp only [if_neg hc]
          have hj2 : j2 < (scheduleJobs g uid off rest (i0 + 1) (k + 1)).1.length := by
            rw [(ih (i0 + 1) (k + 1)).1]
            exact ha2
          obtain ⟨p1, p2, p3, p4, ⟨d, p5⟩, p6⟩ := (ih (i0 + 1) (k + 1)).2 j2 hj2 ha2
          refine ⟨p1, p2, p3, p4, ⟨d, ?_⟩, p6⟩
          rw [p5]
          ring

theorem scheduleUsers_spec (g : ℕ → ℕ) :
    ∀ (as : List (String × List AssignedJob)) (k : ℕ),
      (scheduleUsers g as k).1.length = as.length ∧
      ∀ i, ∀ hi : i < (scheduleUsers g as k).1.length, ∀ ha : i < as.length,
        ((scheduleUsers g as k).1[i]).1 = (as[i]).1 ∧
        ((scheduleUsers g as k).1[i]).2.length = (as[i]).2.length ∧
        ∃ off, off ≤ 600 ∧ (∃ d, off = randint 0 600 d) ∧
          ∀ j, ∀ hj : j < ((scheduleUsers g as k).1[i]).2.length,
            ∀ hb : j < (as[i]).2.length,
            (((scheduleUsers g as k).1[i]).2[j]).userId = (as[i]).1 ∧
            (((scheduleUsers g as k).1[i]).2[j]).user_offset = off ∧
            (((scheduleUsers g as k).1[i]).2[j]).jobId = ((as[i]).2[j]).job.jobId ∧
            (((scheduleUsers g as k).1[i]).2[j]).countdown =
              off + (((scheduleUsers g as k).1[i]).2[j]).base_delay +
                (((scheduleUsers g as k).1[i]).2[j]).stagger ∧
            (∃ d, (((scheduleUsers g as k).1[i]).2[j]).base_delay =
              randint 120 300 d * (j + 1)) ∧
            (((as[i]).2[j]).share_position = 0 →
              (((scheduleUsers g as k).1[i]).2[j]).stagger = 0) := by
  intro as
  induction as with
  | nil =>
    intro k
    exact ⟨rfl, fun i hi ha => by simp at ha⟩
  | cons e rest ih =>
    intro k
    obtain ⟨uid, ajs⟩ := e
    constructor
    · simp only [scheduleUsers, List.length_cons]
      rw [(ih _).1]
    · intro i hi ha
      cases i with
      | zero =>
        have hspec := scheduleJobs_spec g uid (randint 0 600 (g k)) ajs 0 (k + 1)
        refine ⟨rfl, hspec.1, randint 0 600 (g k),
          randint_le 0 600 (g k) (by omega), ⟨g k, rfl⟩, ?_⟩
        intro j hj hb
        have hjb : j < (scheduleJobs g uid (randint 0 600 (g k)) ajs 0 (k + 1)).1.length := hj
        obtain ⟨q1, q2, q3, q4, ⟨d, q5⟩, q6⟩ := hspec.2 j hjb (by simpa using hb)
        rw [q2] at q4
        exact ⟨q1, q2, q3, q4, ⟨d, by simpa using q5⟩, q6⟩
      | succ i2 =>
        have hi2 : i2 < (scheduleUsers g rest
            (scheduleJobs g uid (randint 0 600 (g k)) ajs 0 (k + 1)).2).1.length := by
          rw [(ih _).1]
          simpa using Nat.lt_of_succ_lt_succ ha
        have ha2 : i2 < rest.length := by simpa using Nat.lt_of_succ_lt_succ ha
        exact (ih _).2 i2 hi2 ha2

/-- Claim C7 (amended): the scheduler enqueues exactly one task per
assignment; for each user a single offset is drawn by randint(0, 600),
shared by every task of that user, and therefore lies in the closed
interval [0, 600] (both endpoints included, not [0, 600)); each task
countdown is that userOffset + baseDelay + stagger, the i-th job of a user
getting baseDelay = randint(120, 300) * (i + 1), and stagger exactly 0
when share_position = 0. -/
theorem C7_scheduler_amended (g : ℕ → ℕ)
    (assignments : List (String × List AssignedJob)) :
    (JobDistributor.scheduleAssignments g assignments).length = assignments.length ∧
    ∀ i, ∀ hi : i < (JobDistributor.scheduleAssignments g assignments).length,
      ∀ ha : i < assignments.length,
      ((JobDistributor.scheduleAssignments g assignments)[i]).1 = (assignments[i]).1 ∧
      ((JobDistributor.scheduleAssignments g assignments)[i]).2.length =
        (assignments[i]).2.length ∧
      ∃ off, off ≤ 600 ∧ (∃ d, off = randint 0 600 d) ∧
        ∀ j, ∀ hj : j < ((JobDistributor.scheduleAssignments g assignments)[i]).2.length,
          ∀ hb : j < (assignments[i]).2.length,
          (((JobDistributor.scheduleAssignments g assignments)[i]).2[j]).userId =
            (assignments[i]).1 ∧
          (((JobDistributor.scheduleAssignments g assignments)[i]).2[j]).user_offset = off ∧
          (((JobDistributor.scheduleAssignments g assignments)[i]).2[j]).jobId =
            ((assignments[i]).2[j]).job.jobId ∧
          (((JobDistributor.scheduleAssignments g assignments)[i]).2[j]).countdown =
            off + (((JobDistributor.scheduleAssignments g assignments)[i]).2[j]).base_delay +
              (((JobDistributor.scheduleAssignments g assignments)[i]).2[j]).stagger ∧
          (∃ d, (((JobDistributor.scheduleAssignments g assignments)[i]).2[j]).base_delay =
            randint 120 300 d * (j + 1)) ∧
          (((assignments[i]).2[j]).share_position = 0 →
            (((JobDistributor.scheduleAssignments g assignments)[i]).2[j]).stagger = 0) :=
  scheduleUsers_spec g assignments 0

theorem C7_scheduler_amended_witness :
    (JobDistributor.scheduleAssignments (fun _ => 600) sampleAssignment).length =
      sampleAssignment.length ∧
    (((JobDistributor.scheduleAssignments (fun _ => 600) sampleAssignment).get
      ⟨0, by decide⟩).2.get ⟨0, by decide⟩).user_offset ≤ 600 := by
  constructor
  · exact (C7_scheduler_amended (fun _ => 600) sampleAssignment).1
  · obtain ⟨off, hoff, -, hitems⟩ := ((C7_scheduler_amended (fun _ => 600)
      sampleAssignment).2 0 (by decide) (by decide)).2.2
    have h := hitems 0 (by decide) (by decide)
    calc (((JobDistributor.scheduleAssignments (fun _ => 600) sampleAssignment).get
          ⟨0, by decide⟩).2.get ⟨0, by decide⟩).user_offset = off := h.2.1
      _ ≤ 600 := hoff
